import Mathlib

/-!
Verification of the subagent orchestration core of the pi-extensions
repository (plan-mode subagents: task normalization, concurrency-limited
scheduling, activity recording, run registry, steering, reference
extraction and worker-result assembly).

Strings from the source are modelled as `List Char`; JavaScript numbers
are modelled as `ℚ` (every JS float that reaches the validated paths is a
finite rational) or `Int`/`Nat` where the source only ever holds integers.
`Map` objects are modelled as insertion-ordered association lists, which
matches the JavaScript `Map` iteration-order contract.
-/

namespace PiExt

abbrev Str := List Char

/-! ## Shared string helpers (ports of the string operations used in
`subagents.ts` / `state.ts`) -/

/-- Port of JavaScript `String.prototype.trim` on both ends. -/
def trimChars (s : Str) : Str :=
  ((s.dropWhile Char.isWhitespace).reverse.dropWhile Char.isWhitespace).reverse

/-- Decimal digits of a natural number, most significant first; the
`fuel` argument makes the usual divide-by-ten loop structurally
recursive.  `decChars` is the port of JavaScript number-to-string
conversion for the naturals that appear in generated ids. -/
def decCharsAux : Nat → Nat → List Char → List Char
  | 0, _, acc => acc
  | fuel + 1, n, acc =>
      if n = 0 then acc else decCharsAux fuel (n / 10) (Nat.digitChar (n % 10) :: acc)

def decChars (n : Nat) : List Char :=
  if n = 0 then ['0'] else decCharsAux n n []

/-- `join(sep)` on a list of strings. -/
def joinWith (sep : Str) : List Str → Str
  | [] => []
  | [x] => x
  | x :: rest => x ++ sep ++ joinWith sep rest

/-! ## Task normalization (`normalizeSubagentTaskId` / `normalizeSubagentTasks`) -/

/-- Characters kept verbatim by the slug regex `[^a-z0-9_-]+`. -/
def isSlugChar (c : Char) : Bool :=
  c.isLower || c.isDigit || c == '_' || c == '-'

/-- Port of `.replace(/[^a-z0-9_-]+/g, "-")`: every maximal run of
non-slug characters becomes a single dash.  The flag records whether the
previous character was part of such a run. -/
def collapseBadAux (inRun : Bool) : List Char → List Char
  | [] => []
  | c :: rest =>
      if isSlugChar c then c :: collapseBadAux false rest
      else if inRun then collapseBadAux true rest
      else '-' :: collapseBadAux true rest

/-- Port of the second regex replace of the slug pipeline (dash runs to
a single dash): maximal runs of dashes collapse to one dash. -/
def collapseDashAux (prevDash : Bool) : List Char → List Char
  | [] => []
  | c :: rest =>
      if c = '-' then
        if prevDash then collapseDashAux true rest
        else '-' :: collapseDashAux true rest
      else c :: collapseDashAux false rest

def isEdgeChar (c : Char) : Bool := c == '-' || c == '_'

/-- Port of `.replace(/^[-_]+|[-_]+$/g, "")`. -/
def stripEdges (s : Str) : Str :=
  ((s.dropWhile isEdgeChar).reverse.dropWhile isEdgeChar).reverse

/-- The full slug pipeline applied to a caller-provided raw id:
trim, lower-case, collapse non-slug runs, collapse dash runs, strip
leading/trailing dashes and underscores. -/
def slugify (raw : Str) : Str :=
  stripEdges (collapseDashAux false (collapseBadAux false ((trimChars raw).map Char.toLower)))

/-- The base id before collision suffixing: the slug of the raw id, or
`task-<index+1>` when the raw id is absent or slugs to the empty string
(the `|| fallback` in the source). -/
def taskIdBase (rawId : Option Str) (index : Nat) : Str :=
  let fallback := "task-".toList ++ decChars (index + 1)
  match rawId with
  | none => fallback
  | some raw =>
      let s := slugify raw
      if s = [] then fallback else s

/-- The k-th candidate tried by the collision loop: the base itself,
then `base-2`, `base-3`, ... -/
def candidateId (base : Str) (k : Nat) : Str :=
  if k = 0 then base else base ++ '-' :: decChars (k + 1)

/-- The `while (used.has(id))` loop of `normalizeSubagentTaskId`,
expressed with fuel: try candidates in order, returning the first one
not in `used`.  With sufficient fuel (which `freshTaskId` supplies) the
fuel never runs out before a fresh candidate is found. -/
def firstFresh (base : Str) (used : List Str) : Nat → Nat → Str
  | 0, k => candidateId base k
  | fuel + 1, k =>
      if candidateId base k ∈ used then firstFresh base used fuel (k + 1)
      else candidateId base k

def usedMaxLen (used : List Str) : Nat :=
  used.foldr (fun u m => max u.length m) 0

/-- The id chosen by `normalizeSubagentTaskId` for a given base and set
of already-used ids. -/
def freshTaskId (base : Str) (used : List Str) : Str :=
  firstFresh base used (10 ^ (usedMaxLen used + 2)) 0

structure SubagentTask where
  id : Option Str
  prompt : Str
  cwd : Option Str
deriving DecidableEq

structure NormalizedSubagentTask where
  id : Str
  prompt : Str
  cwd : Option Str
deriving DecidableEq

/-- The `tasks.map` of `normalizeSubagentTasks`, threading the `used`
set through the batch. -/
def normalizeGo : List SubagentTask → Nat → List Str → List NormalizedSubagentTask
  | [], _, _ => []
  | t :: rest, index, used =>
      let id := freshTaskId (taskIdBase t.id index) used
      { id := id, prompt := t.prompt, cwd := t.cwd } :: normalizeGo rest (index + 1) (id :: used)

def normalizeSubagentTasks (tasks : List SubagentTask) : List NormalizedSubagentTask :=
  normalizeGo tasks 0 []

/-! ### Normalization lemmas -/

theorem decCharsAux_zero (f : Nat) (acc : List Char) : decCharsAux f 0 acc = acc := by
  cases f with
  | zero => rfl
  | succ f => simp [decCharsAux]

/-- The decimal representation of `10 ^ m` has at least `m + 1` digits,
so its length grows without bound. -/
theorem decCharsAux_pow_length :
    ∀ (m fuel : Nat) (acc : List Char), 10 ^ m ≤ fuel →
      m + 1 + acc.length ≤ (decCharsAux fuel (10 ^ m) acc).length := by
  intro m
  induction m with
  | zero =>
      intro fuel acc hf
      rw [pow_zero] at hf ⊢
      cases fuel with
      | zero => exact absurd hf (by omega)
      | succ f =>
          rw [show decCharsAux (f + 1) 1 acc
              = decCharsAux f (1 / 10) (Nat.digitChar (1 % 10) :: acc) from by
            simp [decCharsAux]]
          rw [show (1 : Nat) / 10 = 0 from rfl, decCharsAux_zero]
          simp only [List.length_cons]
          omega
  | succ m ih =>
      intro fuel acc hf
      have hm1 : 1 ≤ 10 ^ m := Nat.one_le_pow m 10 (by omega)
      have hps : 10 ^ (m + 1) = 10 ^ m * 10 := by rw [Nat.pow_succ]
      cases fuel with
      | zero => exact absurd hf (by simp only [hps]; omega)
      | succ f =>
          have hf : 10 ^ (m + 1) ≤ f + 1 := hf
          have hne : ¬ 10 ^ (m + 1) = 0 := by positivity
          rw [show decCharsAux (f + 1) (10 ^ (m + 1)) acc
              = decCharsAux f (10 ^ (m + 1) / 10) (Nat.digitChar (10 ^ (m + 1) % 10) :: acc)
              from by simp [decCharsAux, hne]]
          have hdiv : 10 ^ (m + 1) / 10 = 10 ^ m := by
            rw [hps]
            exact Nat.mul_div_cancel _ (by omega)
          rw [hdiv]
          have hfle : 10 ^ m ≤ f := by
            rw [hps] at hf
            omega
          have := ih f (Nat.digitChar (10 ^ (m + 1) % 10) :: acc) hfle
          simp only [List.length_cons] at this
          omega

theorem decChars_pow_length (m : Nat) : m + 1 ≤ (decChars (10 ^ m)).length := by
  have hne : ¬ 10 ^ m = 0 := by positivity
  unfold decChars
  rw [if_neg hne]
  have := decCharsAux_pow_length m (10 ^ m) [] (Nat.le_refl _)
  simpa using this

theorem usedMaxLen_ge (used : List Str) : ∀ u ∈ used, u.length ≤ usedMaxLen used := by
  induction used with
  | nil => intro u hu; simp at hu
  | cons v rest ih =>
      intro u hu
      rcases List.mem_cons.mp hu with h | h
      · subst h
        show u.length ≤ max u.length (usedMaxLen rest)
        exact Nat.le_max_left _ _
      · calc u.length ≤ usedMaxLen rest := ih u h
          _ ≤ max v.length (usedMaxLen rest) := Nat.le_max_right _ _

theorem candidateId_ne_nil {base : Str} (hb : base ≠ []) (k : Nat) :
    candidateId base k ≠ [] := by
  unfold candidateId
  by_cases hk : k = 0
  · rw [if_pos hk]
    exact hb
  · rw [if_neg hk]
    cases base with
    | nil => exact absurd rfl hb
    | cons c rest => simp

/-- Somewhere in the fuel window there is a candidate longer than every
used id, hence fresh: the one whose numeric suffix is a power of ten. -/
theorem fresh_candidate_exists (base : Str) (used : List Str) :
    ∃ j, j ≤ 10 ^ (usedMaxLen used + 2) ∧ candidateId base j ∉ used := by
  set L := usedMaxLen used with hL
  refine ⟨10 ^ (L + 1) - 1, ?_, ?_⟩
  · have h1 : (10 : Nat) ^ (L + 1) ≤ 10 ^ (L + 2) :=
      Nat.pow_le_pow_right (by omega) (by omega)
    exact le_trans (Nat.sub_le _ _) h1
  · have hpow1 : (10 : Nat) ≤ 10 ^ (L + 1) := by
      calc (10 : Nat) = 10 ^ 1 := by norm_num
        _ ≤ 10 ^ (L + 1) := Nat.pow_le_pow_right (by omega) (by omega)
    have hj0 : ¬ (10 ^ (L + 1) - 1 = 0) := by omega
    intro hmem
    have hlen : (candidateId base (10 ^ (L + 1) - 1)).length ≤ L := usedMaxLen_ge used _ hmem
    unfold candidateId at hlen
    rw [if_neg hj0] at hlen
    have hsuf : 10 ^ (L + 1) - 1 + 1 = 10 ^ (L + 1) := by omega
    rw [hsuf] at hlen
    have hd := decChars_pow_length (L + 1)
    simp only [List.length_append, List.length_cons] at hlen
    omega

/-- The collision loop returns an id not in `used`, provided some
candidate inside its fuel window is fresh. -/
theorem firstFresh_not_mem (base : Str) (used : List Str) :
    ∀ (fuel k : Nat), (∃ j, k ≤ j ∧ j ≤ k + fuel ∧ candidateId base j ∉ used) →
      firstFresh base used fuel k ∉ used := by
  intro fuel
  induction fuel with
  | zero =>
      intro k hj
      obtain ⟨j, hj1, hj2, hj3⟩ := hj
      have hjk : j = k := by omega
      subst hjk
      exact hj3
  | succ fuel ih =>
      intro k hj
      obtain ⟨j, hj1, hj2, hj3⟩ := hj
      unfold firstFresh
      by_cases hmem : candidateId base k ∈ used
      · rw [if_pos hmem]
        refine ih (k + 1) ⟨j, ?_, by omega, hj3⟩
        rcases Nat.eq_or_lt_of_le hj1 with h | h
        · exact absurd (h ▸ hj3) (fun hc => hc hmem)
        · omega
      · rw [if_neg hmem]
        exact hmem

theorem freshTaskId_not_mem (base : Str) (used : List Str) :
    freshTaskId base used ∉ used := by
  unfold freshTaskId
  obtain ⟨j, hj1, hj2⟩ := fresh_candidate_exists base used
  exact firstFresh_not_mem base used _ 0 ⟨j, by omega, by omega, hj2⟩

theorem firstFresh_ne_nil (base : Str) (used : List Str) (hb : base ≠ []) :
    ∀ (fuel k : Nat), firstFresh base used fuel k ≠ [] := by
  intro fuel
  induction fuel with
  | zero => intro k; exact candidateId_ne_nil hb k
  | succ fuel ih =>
      intro k
      unfold firstFresh
      by_cases hmem : candidateId base k ∈ used
      · rw [if_pos hmem]
        exact ih (k + 1)
      · rw [if_neg hmem]
        exact candidateId_ne_nil hb k

theorem taskIdBase_ne_nil (rawId : Option Str) (index : Nat) : taskIdBase rawId index ≠ [] := by
  cases rawId with
  | none => simp [taskIdBase]
  | some raw =>
      show (if slugify raw = [] then "task-".toList ++ decChars (index + 1)
          else slugify raw) ≠ []
      by_cases hs : slugify raw = []
      · rw [if_pos hs]
        simp
      · rw [if_neg hs]
        exact hs

theorem freshTaskId_ne_nil (rawId : Option Str) (index : Nat) (used : List Str) :
    freshTaskId (taskIdBase rawId index) used ≠ [] :=
  firstFresh_ne_nil _ used (taskIdBase_ne_nil rawId index) _ 0

/-- Full characterization of `normalizeGo`: one output per input in
order, prompts and working directories preserved, each id computed by
the slug-fallback-suffix procedure against the ids assigned earlier in
the same call, ids nonempty, fresh with respect to `used`, and pairwise
distinct. -/
theorem normalizeGo_spec :
    ∀ (tasks : List SubagentTask) (index : Nat) (used : List Str),
      (normalizeGo tasks index used).length = tasks.length ∧
      (∀ i t, tasks[i]? = some t → ∃ nt, (normalizeGo tasks index used)[i]? = some nt ∧
        nt.prompt = t.prompt ∧ nt.cwd = t.cwd ∧
        nt.id = freshTaskId (taskIdBase t.id (index + i))
          ((((normalizeGo tasks index used).take i).map NormalizedSubagentTask.id).reverse
            ++ used)) ∧
      (∀ nt ∈ normalizeGo tasks index used, nt.id ∉ used ∧ nt.id ≠ []) ∧
      ((normalizeGo tasks index used).map NormalizedSubagentTask.id).Nodup
  | [], index, used => by
      refine ⟨rfl, ?_, ?_, List.nodup_nil⟩
      · intro i t ht
        simp at ht
      · intro nt hnt
        simp [normalizeGo] at hnt
  | t :: rest, index, used => by
      have ih := normalizeGo_spec rest (index + 1)
        (freshTaskId (taskIdBase t.id index) used :: used)
      have hgo : normalizeGo (t :: rest) index used
          = { id := freshTaskId (taskIdBase t.id index) used,
              prompt := t.prompt, cwd := t.cwd }
            :: normalizeGo rest (index + 1) (freshTaskId (taskIdBase t.id index) used :: used) :=
        rfl
      rw [hgo]
      refine ⟨by simp [ih.1], ?_, ?_, ?_⟩
      · intro i tt ht
        match i, ht with
        | 0, ht =>
            rw [List.getElem?_cons_zero] at ht
            have htt : tt = t := (Option.some_inj.mp ht).symm
            subst htt
            exact ⟨_, List.getElem?_cons_zero, rfl, rfl, by simp⟩
        | i + 1, ht =>
            rw [List.getElem?_cons_succ] at ht
            obtain ⟨nt, hnt, hp, hc, hid⟩ := ih.2.1 i tt ht
            refine ⟨nt, by rw [List.getElem?_cons_succ]; exact hnt, hp, hc, ?_⟩
            rw [hid, show index + 1 + i = index + (i + 1) from by omega, List.take_succ_cons,
              List.map_cons, List.reverse_cons, List.append_assoc, List.singleton_append]
      · intro nt hnt
        rcases List.mem_cons.mp hnt with h | h
        · subst h
          exact ⟨freshTaskId_not_mem _ used, freshTaskId_ne_nil t.id index used⟩
        · obtain ⟨hni, hne⟩ := ih.2.2.1 nt h
          exact ⟨fun hc => hni (List.mem_cons_of_mem _ hc), hne⟩
      · rw [List.map_cons, List.nodup_cons]
        constructor
        · intro hc
          obtain ⟨nt, hnt, hid⟩ := List.mem_map.mp hc
          have := (ih.2.2.1 nt hnt).1
          exact this (hid ▸ List.mem_cons_self _ _)
        · exact ih.2.2.2

/-! ## Concurrency validation (`resolveSubagentConcurrency` in `state.ts`
and the gate at the top of the `subagents` tool `execute`) -/

/-- Port of `resolveSubagentConcurrency`.  The input models a JS number
(`none` = the argument was `undefined`, defaulted to 2 by `?? 2`); all
finite JS numbers are rationals, and `Number.isInteger` corresponds to
the denominator being 1.  `none` in the result is the source's `null`
rejection. -/
def resolveSubagentConcurrency (value : Option ℚ) : Option ℤ :=
  let c : ℚ := value.getD 2
  if c.den ≠ 1 then none
  else if c < 1 ∨ 4 < c then none
  else some c.num

def concurrencyErrorText : Str :=
  "concurrency must be an integer between 1 and 4.".toList

def planModeErrorText : Str :=
  "subagents is only available while plan mode is active.".toList

inductive SubagentsGate
  | inactiveError (text : Str)
  | concurrencyError (text : Str)
  | proceedRun (tasks : List NormalizedSubagentTask) (concurrency : ℤ)
deriving DecidableEq

/-- The prelude of the `subagents` tool `execute`: plan-mode check, task
normalization, then concurrency validation; a `null` from
`resolveSubagentConcurrency` becomes a caller-facing error before any
task is run. -/
def subagentsPrecheck (active : Bool) (tasks : List SubagentTask) (value : Option ℚ) :
    SubagentsGate :=
  if !active then .inactiveError planModeErrorText
  else
    let ts := normalizeSubagentTasks tasks
    match resolveSubagentConcurrency value with
    | none => .concurrencyError concurrencyErrorText
    | some c => .proceedRun ts c

/-! ## Activity recording (`summarizeSnippet` and `recordActivity` in
`runSubagentTask`) -/

inductive SubagentActivityKind
  | status
  | tool
  | assistant
  | toolResult
  | stderr
deriving DecidableEq

structure SubagentActivity where
  kind : SubagentActivityKind
  text : Str
  timestamp : Nat
deriving DecidableEq

/-- Port of `.replace(/\s+/g, " ")`: every maximal whitespace run
becomes a single space. -/
def collapseWsAux (prevWs : Bool) : List Char → List Char
  | [] => []
  | c :: rest =>
      if c.isWhitespace then
        if prevWs then collapseWsAux true rest
        else ' ' :: collapseWsAux true rest
      else c :: collapseWsAux false rest

/-- Port of `summarizeSnippet`. -/
def summarizeSnippet (text : Str) (maxLength : Nat) : Str :=
  let singleLine := trimChars (collapseWsAux false text)
  if singleLine = [] then []
  else if singleLine.length ≤ maxLength then singleLine
  else singleLine.take (maxLength - 3) ++ "...".toList

/-- The capacity `maxActivities` of the per-task activity buffer. -/
def maxActivities : Nat := 120

/-- Port of the `recordActivity` closure of `runSubagentTask`: normalize
the text, skip empty snippets, push, and `shift()` the oldest entry once
the buffer exceeds `maxActivities`. -/
def recordActivity (activities : List SubagentActivity) (kind : SubagentActivityKind)
    (text : Str) (ts : Nat) : List SubagentActivity :=
  let normalized := summarizeSnippet text 180
  if normalized = [] then activities
  else
    let pushed := activities ++ [{ kind := kind, text := normalized, timestamp := ts }]
    if pushed.length > maxActivities then pushed.tail else pushed

/-! ## Concurrency-limited scheduler (`runWithConcurrencyLimit`)

The source creates `limit` worker loops; each loop atomically claims the
next index (`nextIndex++` is synchronous between awaits), awaits the
runner on the claimed item, writes the result at the claimed position,
and exits once the claimed index runs past the input.  This is embedded
as a small-step system: a state holds the shared `nextIndex`, the result
slots and each worker's claimed-but-unwritten index; a schedule (an
arbitrary interleaving of worker ids, covering every completion order)
drives the steps. -/

structure PoolState (TOut : Type) where
  nextIndex : Nat
  results : List (Option TOut)
  pending : List (Option Nat)
deriving DecidableEq

/-- One step of the worker `w`: write a previously claimed index, else
claim the next index if any work remains, else do nothing (the worker
loop has returned). -/
def poolStep {TIn TOut : Type} (items : List TIn) (runner : TIn → Nat → TOut)
    (s : PoolState TOut) (w : Nat) : PoolState TOut :=
  match s.pending[w]? with
  | some (some i) =>
      { s with results := s.results.set i ((items[i]?).map (fun a => runner a i)),
               pending := s.pending.set w none }
  | some none =>
      if s.nextIndex < items.length then
        { s with nextIndex := s.nextIndex + 1, pending := s.pending.set w (some s.nextIndex) }
      else s
  | none => s

def initPool (TOut : Type) (numWorkers m : Nat) : PoolState TOut :=
  { nextIndex := 0, results := List.replicate m none, pending := List.replicate numWorkers none }

/-- The clamp applied to the requested concurrency: floor, at least 1,
at most the number of items (`Math.max(1, Math.min(...))`). -/
def subagentLimit (concurrency : Int) (m : Nat) : Nat :=
  (max 1 (min concurrency (m : Int))).toNat

def runPoolSchedule {TIn TOut : Type} (items : List TIn) (runner : TIn → Nat → TOut)
    (numWorkers : Nat) (schedule : List Nat) : PoolState TOut :=
  schedule.foldl (poolStep items runner) (initPool TOut numWorkers items.length)

/-- All workers have returned: no claimed index is unwritten and no work
remains. -/
def poolFinished {TOut : Type} (s : PoolState TOut) (m : Nat) : Prop :=
  m ≤ s.nextIndex ∧ ∀ p ∈ s.pending, p = none

instance {TOut : Type} (s : PoolState TOut) (m : Nat) : Decidable (poolFinished s m) := by
  unfold poolFinished
  exact inferInstance

/-- Port of `runWithConcurrencyLimit`: empty input returns an empty
array before any worker is created; otherwise the pool runs under the
clamped limit. -/
def runWithConcurrencyLimit {TIn TOut : Type} (items : List TIn) (concurrency : Int)
    (runner : TIn → Nat → TOut) (schedule : List Nat) : List (Option TOut) :=
  if items.length = 0 then []
  else (runPoolSchedule items runner (subagentLimit concurrency items.length) schedule).results

/-- How many worker loops the function creates. -/
def spawnedWorkers {TIn : Type} (items : List TIn) (concurrency : Int) : Nat :=
  if items.length = 0 then 0 else subagentLimit concurrency items.length

/-! ### Scheduler invariant -/

/-- Every result slot below `nextIndex` is either already written with
the runner's value for that position or claimed by exactly some worker;
claimed indices are in range. -/
def poolInv {TIn TOut : Type} (items : List TIn) (runner : TIn → Nat → TOut)
    (s : PoolState TOut) : Prop :=
  s.results.length = items.length ∧
  s.nextIndex ≤ items.length ∧
  (∀ (w i : Nat), s.pending[w]? = some (some i) → i < items.length) ∧
  (∀ i : Nat, i < s.nextIndex →
    s.results[i]? = some ((items[i]?).map (fun a => runner a i)) ∨
    ∃ w : Nat, s.pending[w]? = some (some i))

theorem poolInv_init {TIn TOut : Type} (items : List TIn) (runner : TIn → Nat → TOut)
    (numWorkers : Nat) : poolInv items runner (initPool TOut numWorkers items.length) := by
  have hpend : (initPool TOut numWorkers items.length).pending
      = List.replicate numWorkers none := rfl
  have hnext0 : (initPool TOut numWorkers items.length).nextIndex = 0 := rfl
  refine ⟨by simp [initPool], by rw [hnext0]; omega, ?_, ?_⟩
  · intro w i hw
    rw [hpend, List.getElem?_replicate] at hw
    by_cases hlt : w < numWorkers
    · rw [if_pos hlt] at hw
      exact absurd (Option.some_inj.mp hw) (by simp)
    · rw [if_neg hlt] at hw
      exact absurd hw (by simp)
  · intro i hi
    rw [hnext0] at hi
    exact absurd hi (by omega)

theorem poolInv_step {TIn TOut : Type} (items : List TIn) (runner : TIn → Nat → TOut)
    (s : PoolState TOut) (w : Nat) (h : poolInv items runner s) :
    poolInv items runner (poolStep items runner s w) := by
  obtain ⟨hlen, hnext, hrange, hslots⟩ := h
  cases hp : s.pending[w]? with
  | none =>
      have hstep : poolStep items runner s w = s := by
        simp only [poolStep, hp]
      rw [hstep]
      exact ⟨hlen, hnext, hrange, hslots⟩
  | some p =>
      have hw : w < s.pending.length := (List.getElem?_eq_some.mp hp).1
      cases p with
      | none =>
          by_cases hlt : s.nextIndex < items.length
          · have hstep : poolStep items runner s w
                = { nextIndex := s.nextIndex + 1, results := s.results,
                    pending := s.pending.set w (some s.nextIndex) } := by
              simp only [poolStep, hp, if_pos hlt]
            rw [hstep]
            refine ⟨hlen, by show s.nextIndex + 1 ≤ items.length; omega, ?_, ?_⟩
            · intro w' i hw'
              replace hw' : (s.pending.set w (some s.nextIndex))[w']? = some (some i) := hw'
              by_cases hww : w = w'
              · subst hww
                rw [List.getElem?_set_self hw] at hw'
                have hsome : some s.nextIndex = some i := Option.some_inj.mp hw'
                have hi : i = s.nextIndex := (Option.some_inj.mp hsome).symm
                omega
              · rw [List.getElem?_set_ne hww] at hw'
                exact hrange w' i hw'
            · intro i hi
              replace hi : i < s.nextIndex + 1 := hi
              by_cases hieq : i = s.nextIndex
              · subst hieq
                refine Or.inr ⟨w, ?_⟩
                show (s.pending.set w (some s.nextIndex))[w]? = some (some s.nextIndex)
                rw [List.getElem?_set_self hw]
              · have hi' : i < s.nextIndex := by omega
                rcases hslots i hi' with hres | ⟨w', hw'⟩
                · exact Or.inl hres
                · by_cases hww : w = w'
                  · subst hww
                    rw [hp] at hw'
                    exact absurd (Option.some_inj.mp hw') (by simp)
                  · refine Or.inr ⟨w', ?_⟩
                    show (s.pending.set w (some s.nextIndex))[w']? = some (some i)
                    rw [List.getElem?_set_ne hww]
                    exact hw'
          · have hstep : poolStep items runner s w = s := by
              simp only [poolStep, hp, if_neg hlt]
            rw [hstep]
            exact ⟨hlen, hnext, hrange, hslots⟩
      | some i0 =>
          have hi0 : i0 < items.length := hrange w i0 hp
          have hstep : poolStep items runner s w
              = { nextIndex := s.nextIndex,
                  results := s.results.set i0 ((items[i0]?).map (fun a => runner a i0)),
                  pending := s.pending.set w none } := by
            simp only [poolStep, hp]
          rw [hstep]
          refine ⟨by show (s.results.set i0 _).length = _; rw [List.length_set]; exact hlen,
            hnext, ?_, ?_⟩
          · intro w' i hw'
            replace hw' : (s.pending.set w none)[w']? = some (some i) := hw'
            by_cases hww : w = w'
            · subst hww
              rw [List.getElem?_set_self hw] at hw'
              exact absurd (Option.some_inj.mp hw') (by simp)
            · rw [List.getElem?_set_ne hww] at hw'
              exact hrange w' i hw'
          · intro i hi
            replace hi : i < s.nextIndex := hi
            by_cases hii : i = i0
            · subst hii
              left
              show (s.results.set i ((items[i]?).map (fun a => runner a i)))[i]? = _
              rw [List.getElem?_set_self (by rw [hlen]; exact hi0)]
            · rcases hslots i hi with hres | ⟨w', hw'⟩
              · left
                show (s.results.set i0 ((items[i0]?).map (fun a => runner a i0)))[i]? = _
                rw [List.getElem?_set_ne (fun hc => hii hc.symm)]
                exact hres
              · by_cases hww : w = w'
                · subst hww
                  rw [hp] at hw'
                  have hsome : some i0 = some i := Option.some_inj.mp hw'
                  exact absurd (Option.some_inj.mp hsome).symm hii
                · refine Or.inr ⟨w', ?_⟩
                  show (s.pending.set w none)[w']? = some (some i)
                  rw [List.getElem?_set_ne hww]
                  exact hw'

theorem poolInv_foldl {TIn TOut : Type} (items : List TIn) (runner : TIn → Nat → TOut) :
    ∀ (schedule : List Nat) (s : PoolState TOut), poolInv items runner s →
      poolInv items runner (schedule.foldl (poolStep items runner) s)
  | [], s, h => h
  | w :: rest, s, h => by
      rw [List.foldl_cons]
      exact poolInv_foldl items runner rest _ (poolInv_step items runner s w h)

/-! ### A canonical schedule finishes the pool -/

theorem poolStep_write {TIn TOut : Type} (items : List TIn) (runner : TIn → Nat → TOut)
    (s : PoolState TOut) (i : Nat) (rest : List (Option Nat)) (h : s.pending = some i :: rest) :
    poolStep items runner s 0
      = { nextIndex := s.nextIndex,
          results := s.results.set i ((items[i]?).map (fun a => runner a i)),
          pending := none :: rest } := by
  have hget : s.pending[0]? = some (some i) := by
    rw [h]
    exact List.getElem?_cons_zero
  simp only [poolStep, hget]
  rw [h, List.set_cons_zero]

theorem poolStep_claim {TIn TOut : Type} (items : List TIn) (runner : TIn → Nat → TOut)
    (s : PoolState TOut) (rest : List (Option Nat)) (h : s.pending = none :: rest)
    (hlt : s.nextIndex < items.length) :
    poolStep items runner s 0
      = { nextIndex := s.nextIndex + 1, results := s.results,
          pending := some s.nextIndex :: rest } := by
  have hget : s.pending[0]? = some none := by
    rw [h]
    exact List.getElem?_cons_zero
  simp only [poolStep, hget, if_pos hlt]
  rw [h, List.set_cons_zero]

theorem poolStep_claim_done {TIn TOut : Type} (items : List TIn) (runner : TIn → Nat → TOut)
    (s : PoolState TOut) (rest : List (Option Nat)) (h : s.pending = none :: rest)
    (hge : ¬ s.nextIndex < items.length) :
    poolStep items runner s 0 = s := by
  have hget : s.pending[0]? = some none := by
    rw [h]
    exact List.getElem?_cons_zero
  simp only [poolStep, hget, if_neg hge]

theorem pool_pair_step {TIn TOut : Type} (items : List TIn) (runner : TIn → Nat → TOut)
    (s : PoolState TOut) (hq : ∀ p ∈ s.pending, p = none) (hw : 0 < s.pending.length) :
    (∀ p ∈ (poolStep items runner (poolStep items runner s 0) 0).pending, p = none) ∧
    (poolStep items runner (poolStep items runner s 0) 0).pending.length
      = s.pending.length ∧
    (poolStep items runner (poolStep items runner s 0) 0).nextIndex
      = (if s.nextIndex < items.length then s.nextIndex + 1 else s.nextIndex) := by
  match hsp : s.pending, hw with
  | p0 :: prest, _ =>
      have hp0 : p0 = none := hq p0 (by rw [hsp]; simp)
      subst hp0
      by_cases hlt : s.nextIndex < items.length
      · have h1 := poolStep_claim items runner s prest hsp hlt
        have h2 := poolStep_write items runner (poolStep items runner s 0) s.nextIndex prest
          (by rw [h1])
        rw [h2]
        refine ⟨?_, ?_, ?_⟩
        · intro p hp
          replace hp : p ∈ (none :: prest : List (Option Nat)) := hp
          rcases List.mem_cons.mp hp with h | h
          · exact h
          · exact hq p (by rw [hsp]; exact List.mem_cons_of_mem _ h)
        · rfl
        · show (poolStep items runner s 0).nextIndex = _
          rw [h1, if_pos hlt]
      · have h1 := poolStep_claim_done items runner s prest hsp hlt
        rw [h1, h1]
        exact ⟨hq, by rw [hsp], by rw [if_neg hlt]⟩

theorem pool_replicate_zero {TIn TOut : Type} (items : List TIn) (runner : TIn → Nat → TOut) :
    ∀ (k : Nat) (s : PoolState TOut),
      (∀ p ∈ s.pending, p = none) → 0 < s.pending.length →
      (∀ p ∈ ((List.replicate (2 * k) 0).foldl (poolStep items runner) s).pending, p = none) ∧
      (items.length ≤ ((List.replicate (2 * k) 0).foldl (poolStep items runner) s).nextIndex ∨
        s.nextIndex + k ≤ ((List.replicate (2 * k) 0).foldl (poolStep items runner) s).nextIndex)
  | 0, s, hq, _ => by
      simp only [Nat.mul_zero, List.replicate, List.foldl_nil]
      exact ⟨hq, Or.inr (by omega)⟩
  | k + 1, s, hq, hw => by
      have h2 : 2 * (k + 1) = 2 * k + 1 + 1 := by omega
      rw [h2, List.replicate_succ, List.replicate_succ, List.foldl_cons, List.foldl_cons]
      obtain ⟨hq', hlen', hnext'⟩ := pool_pair_step items runner s hq hw
      have ih := pool_replicate_zero items runner k
        (poolStep items runner (poolStep items runner s 0) 0) hq' (by rw [hlen']; exact hw)
      refine ⟨ih.1, ?_⟩
      by_cases hlt : s.nextIndex < items.length
      · rw [if_pos hlt] at hnext'
        rcases ih.2 with h | h
        · exact Or.inl h
        · exact Or.inr (by omega)
      · rw [if_neg hlt] at hnext'
        rcases ih.2 with h | h
        · exact Or.inl h
        · exact Or.inl (by omega)

theorem subagentLimit_pos (concurrency : Int) (m : Nat) : 0 < subagentLimit concurrency m := by
  unfold subagentLimit
  have h := le_max_left 1 (min concurrency (m : Int))
  omega

theorem pool_seq_finishes {TIn TOut : Type} (items : List TIn) (runner : TIn → Nat → TOut)
    (numWorkers : Nat) (hw : 0 < numWorkers) :
    poolFinished
      (runPoolSchedule items runner numWorkers
        (List.replicate (2 * items.length) 0))
      items.length := by
  unfold runPoolSchedule poolFinished
  have hinit : ∀ p ∈ (initPool TOut numWorkers items.length).pending, p = none := by
    intro p hp
    simp only [initPool] at hp
    exact List.eq_of_mem_replicate hp
  have hlen : 0 < (initPool TOut numWorkers items.length).pending.length := by
    simp [initPool, hw]
  have h := pool_replicate_zero items runner items.length
    (initPool TOut numWorkers items.length) hinit hlen
  refine ⟨?_, h.1⟩
  rcases h.2 with hc | hc
  · exact hc
  · simpa [initPool] using hc

/-! ## Worker task results and the run registry
(`SubagentTaskResult`, `SubagentRunRecord` from `types.ts`;
`subagentRuns` / `rememberSubagentRun` in `registerSubagentTools`) -/

structure SubagentTaskResult where
  taskId : Str
  task : Str
  cwd : Str
  output : Str
  references : List Str
  exitCode : Int
  stderr : Str
  activities : List SubagentActivity
  startedAt : Nat
  finishedAt : Nat
  steeringNotes : List Str
deriving DecidableEq

structure SubagentRunRecord where
  runId : Str
  createdAt : Nat
  tasks : List SubagentTaskResult
deriving DecidableEq

/-- The `subagentRuns` map, modelled as an insertion-ordered association
list (JavaScript `Map` iterates keys in insertion order; `set` on an
existing key updates the value without moving the key). -/
abbrev SubagentRegistry := List (Str × SubagentRunRecord)

/-- `Map.get`. -/
def mapGet : SubagentRegistry → Str → Option SubagentRunRecord
  | [], _ => none
  | (k, v) :: rest, key => if k = key then some v else mapGet rest key

/-- `Map.set`: overwrite in place when the key exists (keeping its
insertion position), otherwise append at the end. -/
def mapSet : SubagentRegistry → Str → SubagentRunRecord → SubagentRegistry
  | [], key, v => [(key, v)]
  | (k, w) :: rest, key, v =>
      if k = key then (k, v) :: rest else (k, w) :: mapSet rest key v

/-- The registry capacity (the literal 20 in `rememberSubagentRun`). -/
def subagentRunCap : Nat := 20

/-- The `while (subagentRuns.size > 20)` eviction loop: repeatedly
delete the first (least-recently-inserted) key; the loop breaks if the
oldest key is falsy (the empty string). -/
def evictLoop : SubagentRegistry → SubagentRegistry
  | [] => []
  | (k, v) :: rest =>
      if ((k, v) :: rest).length > subagentRunCap then
        if k = [] then (k, v) :: rest else evictLoop rest
      else (k, v) :: rest

/-- Port of `rememberSubagentRun`. -/
def rememberSubagentRun (runs : SubagentRegistry) (run : SubagentRunRecord) :
    SubagentRegistry :=
  evictLoop (mapSet runs run.runId run)

instance : Inhabited SubagentTaskResult :=
  ⟨⟨[], [], [], [], [], 0, [], [], 0, 0, []⟩⟩

instance : Inhabited SubagentRunRecord := ⟨⟨[], 0, []⟩⟩

/-! ### Registry lemmas -/

theorem keys_mapSet_of_mem (m : SubagentRegistry) (k : Str) (v : SubagentRunRecord)
    (h : k ∈ m.map Prod.fst) : (mapSet m k v).map Prod.fst = m.map Prod.fst := by
  induction m with
  | nil => simp at h
  | cons p rest ih =>
      obtain ⟨k', w⟩ := p
      by_cases hk : k' = k
      · subst hk
        show List.map Prod.fst (if k' = k' then (k', v) :: rest else (k', w) :: mapSet rest k' v)
            = List.map Prod.fst ((k', w) :: rest)
        rw [if_pos rfl]
        simp only [List.map_cons]
      · simp only [List.map_cons, List.mem_cons] at h
        rcases h with h | h
        · exact absurd h.symm hk
        · simp only [mapSet, if_neg hk, List.map_cons, ih h]

theorem mapSet_of_not_mem (m : SubagentRegistry) (k : Str) (v : SubagentRunRecord)
    (h : k ∉ m.map Prod.fst) : mapSet m k v = m ++ [(k, v)] := by
  induction m with
  | nil => rfl
  | cons p rest ih =>
      obtain ⟨k', w⟩ := p
      simp only [List.map_cons, List.mem_cons, not_or] at h
      have hk : ¬ k' = k := fun hh => h.1 hh.symm
      simp only [mapSet, if_neg hk, List.cons_append, ih h.2]

theorem mapGet_mapSet_self (m : SubagentRegistry) (k : Str) (v : SubagentRunRecord) :
    mapGet (mapSet m k v) k = some v := by
  induction m with
  | nil =>
      show mapGet [(k, v)] k = some v
      unfold mapGet
      rw [if_pos rfl]
  | cons p rest ih =>
      obtain ⟨k', w⟩ := p
      by_cases hk : k' = k
      · show mapGet (if k' = k then (k', v) :: rest else (k', w) :: mapSet rest k v) k = some v
        rw [if_pos hk]
        unfold mapGet
        rw [if_pos hk]
      · show mapGet (if k' = k then (k', v) :: rest else (k', w) :: mapSet rest k v) k = some v
        rw [if_neg hk]
        unfold mapGet
        rw [if_neg hk]
        exact ih

theorem mapGet_eq_none_iff (m : SubagentRegistry) (k : Str) :
    mapGet m k = none ↔ k ∉ m.map Prod.fst := by
  induction m with
  | nil => simp [mapGet]
  | cons p rest ih =>
      obtain ⟨k', w⟩ := p
      by_cases hk : k' = k
      · unfold mapGet
        rw [if_pos hk]
        simp [hk]
      · unfold mapGet
        rw [if_neg hk]
        simp only [List.map_cons, List.mem_cons, not_or, ih]
        constructor
        · intro hh
          exact ⟨fun he => hk he.symm, hh⟩
        · intro hh
          exact hh.2

theorem evictLoop_of_le (m : SubagentRegistry) (h : m.length ≤ 20) : evictLoop m = m := by
  cases m with
  | nil => rfl
  | cons p rest =>
      obtain ⟨k, v⟩ := p
      have : ¬ ((k, v) :: rest).length > subagentRunCap := by
        simp only [subagentRunCap]
        omega
      simp only [evictLoop, if_neg this]

theorem evictLoop_of_21 (k : Str) (v : SubagentRunRecord) (rest : SubagentRegistry)
    (hk : k ≠ []) (h : ((k, v) :: rest).length = 21) :
    evictLoop ((k, v) :: rest) = rest := by
  have hgt : ((k, v) :: rest).length > subagentRunCap := by
    simp only [subagentRunCap]
    omega
  have hrest : rest.length ≤ 20 := by
    simp only [List.length_cons] at h
    omega
  simp only [evictLoop, if_pos hgt, if_neg hk]
  exact evictLoop_of_le rest hrest

theorem mapGet_map_pair (l : List SubagentRunRecord)
    (hnd : (l.map SubagentRunRecord.runId).Nodup) (r : SubagentRunRecord) (hr : r ∈ l) :
    mapGet (l.map (fun r => (r.runId, r))) r.runId = some r := by
  induction l with
  | nil => simp at hr
  | cons r' rest ih =>
      simp only [List.map_cons, List.nodup_cons] at hnd
      by_cases hk : r'.runId = r.runId
      · have hrr : r = r' := by
          rcases List.mem_cons.mp hr with h | h
          · exact h
          · exact absurd (hk ▸ List.mem_map_of_mem SubagentRunRecord.runId h) hnd.1
        show mapGet ((r'.runId, r') :: rest.map (fun r => (r.runId, r))) r.runId = some r
        unfold mapGet
        rw [if_pos hk, hrr]
      · have hr' : r ∈ rest := by
          rcases List.mem_cons.mp hr with h | h
          · exact absurd (h ▸ rfl) hk
          · exact h
        show mapGet ((r'.runId, r') :: rest.map (fun r => (r.runId, r))) r.runId = some r
        unfold mapGet
        rw [if_neg hk]
        exact ih hnd.2 hr'

/-- Folding `rememberSubagentRun` over a batch of fresh, distinct,
nonempty run ids keeps the most recent `20` records: the result is the
tail of the appended association list. -/
theorem foldl_remember_drop :
    ∀ (runs : List SubagentRunRecord) (m : SubagentRegistry),
      m.length ≤ 20 →
      (∀ k ∈ m.map Prod.fst, k ≠ []) →
      (∀ r ∈ runs, r.runId ≠ []) →
      ((m.map Prod.fst) ++ runs.map SubagentRunRecord.runId).Nodup →
      runs.foldl rememberSubagentRun m
        = (m ++ runs.map (fun r => (r.runId, r))).drop (m.length + runs.length - 20)
  | [], m, hlen, _, _, _ => by
      simp only [List.foldl_nil, List.map_nil, List.append_nil, List.length_nil, Nat.add_zero]
      rw [Nat.sub_eq_zero_of_le hlen, List.drop_zero]
  | r :: rest, m, hlen, hkeys, hids, hnd => by
      have hdisj := List.disjoint_of_nodup_append hnd
      have hfresh : r.runId ∉ m.map Prod.fst := by
        intro hmem
        exact hdisj hmem (by simp)
      have hrid : r.runId ≠ [] := hids r (by simp)
      have hstep : rememberSubagentRun m r = evictLoop (m ++ [(r.runId, r)]) := by
        unfold rememberSubagentRun
        rw [mapSet_of_not_mem m r.runId r hfresh]
      rcases Nat.lt_or_ge m.length 20 with hlt | hge
      · have hm' : (m ++ [(r.runId, r)]).length ≤ 20 := by
          simp only [List.length_append, List.length_cons, List.length_nil]
          omega
        have hstep' : rememberSubagentRun m r = m ++ [(r.runId, r)] := by
          rw [hstep, evictLoop_of_le _ hm']
        have ih := foldl_remember_drop rest (m ++ [(r.runId, r)]) hm'
          (by
            intro k hk
            simp only [List.map_append, List.map_cons, List.map_nil, List.mem_append,
              List.mem_singleton] at hk
            rcases hk with hk | hk
            · exact hkeys k hk
            · exact hk ▸ hrid)
          (fun x hx => hids x (by simp [hx]))
          (by
            simp only [List.map_append, List.map_cons, List.map_nil, List.append_assoc,
              List.singleton_append]
            simpa using hnd)
        rw [List.foldl_cons, hstep', ih]
        simp only [List.length_append, List.length_cons, List.length_nil, List.map_cons,
          List.append_assoc, List.singleton_append]
        congr 1
        omega
      · have hm20 : m.length = 20 := Nat.le_antisymm hlen hge
        match m, hm20 with
        | p :: mtail, hm20 =>
          have hp1 : p.1 ≠ [] := hkeys p.1 (by simp)
          have h21 : ((p.1, p.2) :: (mtail ++ [(r.runId, r)])).length = 21 := by
            simp only [List.length_cons, List.length_append, List.length_nil]
            simp only [List.length_cons] at hm20
            omega
          have hstep' : rememberSubagentRun (p :: mtail) r = mtail ++ [(r.runId, r)] := by
            rw [hstep]
            show evictLoop ((p.1, p.2) :: (mtail ++ [(r.runId, r)])) = _
            exact evictLoop_of_21 p.1 p.2 _ hp1 h21
          have hm' : (mtail ++ [(r.runId, r)]).length ≤ 20 := by
            simp only [List.length_cons] at hm20
            simp only [List.length_append, List.length_cons, List.length_nil]
            omega
          have hsub : ((mtail.map Prod.fst ++ [r.runId]) ++ rest.map SubagentRunRecord.runId).Sublist
              (((p :: mtail).map Prod.fst) ++ (r :: rest).map SubagentRunRecord.runId) := by
            simp only [List.map_cons, List.append_assoc, List.singleton_append, List.cons_append]
            exact List.Sublist.cons _ (List.Sublist.refl _)
          have ih := foldl_remember_drop rest (mtail ++ [(r.runId, r)]) hm'
            (by
              intro k hk
              simp only [List.map_append, List.map_cons, List.map_nil, List.mem_append,
                List.mem_singleton] at hk
              rcases hk with hk | hk
              · exact hkeys k (by simp [hk])
              · exact hk ▸ hrid)
            (fun x hx => hids x (by simp [hx]))
            (by
              have := hnd.sublist hsub
              simpa only [List.map_append] using this)
          rw [List.foldl_cons, hstep', ih]
          simp only [List.length_append, List.length_cons, List.length_nil, List.map_cons,
            List.append_assoc, List.singleton_append, List.cons_append]
          simp only [List.length_cons] at hm20
          have hdl : mtail.length + 1 + (rest.length + 1) - 20 = rest.length + 1 := by omega
          have hdr : mtail.length + 1 + (rest.length + 1) - 20 - 1 = rest.length := by omega
          rw [hdl, List.drop_succ_cons]
          congr 1

/-! ## Reference extraction (`extractReferences`)

The source scans the text with the global regex for `http(s)` URLs
(scheme followed by a greedy run of non-whitespace), strips trailing
`)`, `,`, `.`, `;` characters from each match, and deduplicates
preserving first-seen order.  The regex scan is modelled faithfully:
at each position, a match requires the scheme prefix (the `https`
alternative is preferred, as the regex engine does) followed by at least
one non-whitespace character; a match consumes the maximal non-whitespace
run and scanning resumes after it, otherwise scanning advances one
character.  The `fuel` argument (instantiated with the text length) makes
the jump after a match structurally recursive. -/

def nonspaceChar (c : Char) : Bool := !c.isWhitespace

/-- Length of the scheme alternative matched at this position, if any. -/
def httpSchemeLen (s : Str) : Option Nat :=
  if ("https://".toList).isPrefixOf s then some 8
  else if ("http://".toList).isPrefixOf s then some 7
  else none

def scanUrlsFuel : Nat → Str → List Str
  | 0, _ => []
  | _ + 1, [] => []
  | fuel + 1, c :: rest =>
      match httpSchemeLen (c :: rest) with
      | some n =>
          let tok := (c :: rest).takeWhile nonspaceChar
          if n < tok.length then tok :: scanUrlsFuel fuel ((c :: rest).drop tok.length)
          else scanUrlsFuel fuel rest
      | none => scanUrlsFuel fuel rest

def scanUrls (s : Str) : List Str := scanUrlsFuel s.length s

/-- The trailing characters stripped from each match. -/
def isStripChar (c : Char) : Bool := c == ')' || c == ',' || c == '.' || c == ';'

/-- `.replace` of the trailing punctuation run with the empty string. -/
def stripUrl (s : Str) : Str := (s.reverse.dropWhile isStripChar).reverse

/-- First-seen-order deduplication (the `Set` in the source). -/
def dedupeAux (seen : List Str) : List Str → List Str
  | [] => []
  | x :: xs => if x ∈ seen then dedupeAux seen xs else x :: dedupeAux (x :: seen) xs

/-- Port of `extractReferences`. -/
def extractReferences (text : Str) : List Str :=
  dedupeAux [] ((scanUrls text).map stripUrl)

/-- Joining an extraction result back into a text (used to state
idempotence of extraction). -/
def joinSpace (xs : List Str) : Str := joinWith [' '] xs

/-! ### Scanner equation lemmas and entry characterization -/

theorem scanUrlsFuel_nil (f : Nat) : scanUrlsFuel f [] = [] := by
  cases f <;> rfl

theorem scanUrlsFuel_cons_none (f : Nat) (c : Char) (rest : Str)
    (h : httpSchemeLen (c :: rest) = none) :
    scanUrlsFuel (f + 1) (c :: rest) = scanUrlsFuel f rest := by
  simp only [scanUrlsFuel, h]

theorem scanUrlsFuel_cons_hit (f : Nat) (c : Char) (rest : Str) (n : Nat)
    (h : httpSchemeLen (c :: rest) = some n)
    (hlt : n < ((c :: rest).takeWhile nonspaceChar).length) :
    scanUrlsFuel (f + 1) (c :: rest)
      = (c :: rest).takeWhile nonspaceChar
        :: scanUrlsFuel f ((c :: rest).drop ((c :: rest).takeWhile nonspaceChar).length) := by
  simp only [scanUrlsFuel, h, if_pos hlt]

theorem scanUrlsFuel_cons_short (f : Nat) (c : Char) (rest : Str) (n : Nat)
    (h : httpSchemeLen (c :: rest) = some n)
    (hge : ¬ n < ((c :: rest).takeWhile nonspaceChar).length) :
    scanUrlsFuel (f + 1) (c :: rest) = scanUrlsFuel f rest := by
  simp only [scanUrlsFuel, h, if_neg hge]

/-- A scanner match: scheme-prefixed with at least one character beyond
the scheme, and entirely non-whitespace. -/
def GoodUrl (e : Str) : Prop :=
  (∃ n, httpSchemeLen e = some n ∧ n < e.length) ∧ (∀ c ∈ e, nonspaceChar c = true)

theorem isPre_trans {a b c : Str} (h1 : a <+: b) (h2 : b <+: c) : a <+: c := by
  obtain ⟨t1, h1⟩ := h1
  obtain ⟨t2, h2⟩ := h2
  exact ⟨t1 ++ t2, by rw [← h2, ← h1, List.append_assoc]⟩

/-- Bridge between the boolean `List.isPrefixOf` used in the executable
definitions and the propositional `<+:`. -/
theorem isPrefixOf_eq_true (p : Str) : ∀ s : Str, p.isPrefixOf s = true ↔ p <+: s := by
  induction p with
  | nil =>
      intro s
      constructor
      · intro _
        exact ⟨s, rfl⟩
      · intro _
        cases s <;> rfl
  | cons a as ih =>
      intro s
      cases s with
      | nil =>
          constructor
          · intro h
            exact absurd h (by simp [List.isPrefixOf])
          · intro h
            obtain ⟨t, ht⟩ := h
            exact absurd ht (by simp)
      | cons b bs =>
          constructor
          · intro h
            simp only [List.isPrefixOf, Bool.and_eq_true, beq_iff_eq] at h
            obtain ⟨hab, hrest⟩ := h
            obtain ⟨t, ht⟩ := (ih bs).mp hrest
            exact ⟨t, by rw [List.cons_append, ht, hab]⟩
          · intro h
            obtain ⟨t, ht⟩ := h
            rw [List.cons_append] at ht
            have hab : a = b := (List.cons.injEq _ _ _ _ ▸ ht).1
            have hrest : as ++ t = bs := (List.cons.injEq _ _ _ _ ▸ ht).2
            simp only [List.isPrefixOf, Bool.and_eq_true, beq_iff_eq]
            exact ⟨hab, (ih bs).mpr ⟨t, hrest⟩⟩

theorem takeWhile_isPre (p : Char → Bool) (l : Str) : l.takeWhile p <+: l :=
  ⟨l.dropWhile p, List.takeWhile_append_dropWhile p l⟩

/-- The scheme matched at a position is determined by any sufficiently
long prefix of the remaining text. -/
theorem schemeLen_of_isPre {s : Str} {n : Nat} (h : httpSchemeLen s = some n)
    (t : Str) (ht : t <+: s) (hlen : n ≤ t.length) : httpSchemeLen t = some n := by
  unfold httpSchemeLen at h ⊢
  by_cases h8 : ("https://".toList).isPrefixOf s = true
  · rw [if_pos h8] at h
    have hn : n = 8 := (Option.some_inj.mp h).symm
    subst hn
    have h8' : ("https://".toList) <+: t := by
      refine List.prefix_of_prefix_length_le ((isPrefixOf_eq_true _ s).mp h8) ht ?_
      have h8len : ("https://".toList).length = 8 := rfl
      omega
    rw [if_pos ((isPrefixOf_eq_true _ t).mpr h8')]
  · rw [if_neg h8] at h
    by_cases h7 : ("http://".toList).isPrefixOf s = true
    · rw [if_pos h7] at h
      have hn : n = 7 := (Option.some_inj.mp h).symm
      subst hn
      have h7' : ("http://".toList) <+: t := by
        refine List.prefix_of_prefix_length_le ((isPrefixOf_eq_true _ s).mp h7) ht ?_
        have h7len : ("http://".toList).length = 7 := rfl
        omega
      have h8t : ¬ ("https://".toList).isPrefixOf t = true := by
        intro hc
        exact h8 ((isPrefixOf_eq_true _ s).mpr
          (isPre_trans ((isPrefixOf_eq_true _ t).mp hc) ht))
      rw [if_neg h8t, if_pos ((isPrefixOf_eq_true _ t).mpr h7')]
    · rw [if_neg h7] at h
      exact absurd h (by simp)

/-- Every entry produced by the scanner is a good URL token. -/
theorem scanUrls_entries : ∀ (f : Nat) (s : Str), ∀ e ∈ scanUrlsFuel f s, GoodUrl e := by
  intro f
  induction f with
  | zero => intro s e he; simp [scanUrlsFuel] at he
  | succ f ih =>
      intro s e he
      match s with
      | [] => rw [scanUrlsFuel_nil] at he; simp at he
      | c :: rest =>
          cases h : httpSchemeLen (c :: rest) with
          | none =>
              rw [scanUrlsFuel_cons_none f c rest h] at he
              exact ih rest e he
          | some n =>
              by_cases hlt : n < ((c :: rest).takeWhile nonspaceChar).length
              · rw [scanUrlsFuel_cons_hit f c rest n h hlt] at he
                rcases List.mem_cons.mp he with he | he
                · subst he
                  refine ⟨⟨n, ?_, hlt⟩, ?_⟩
                  · exact schemeLen_of_isPre h _ (takeWhile_isPre nonspaceChar (c :: rest))
                      (Nat.le_of_lt hlt)
                  · intro ch hch
                    exact List.mem_takeWhile_imp hch
                · exact ih _ e he
              · rw [scanUrlsFuel_cons_short f c rest n h hlt] at he
                exact ih rest e he

/-- Fuel does not matter once it reaches the length of the text. -/
theorem scanUrlsFuel_congr : ∀ (f₁ f₂ : Nat) (s : Str), s.length ≤ f₁ → s.length ≤ f₂ →
    scanUrlsFuel f₁ s = scanUrlsFuel f₂ s := by
  intro f₁
  induction f₁ with
  | zero =>
      intro f₂ s h1 _
      match s, h1 with
      | [], _ => rw [scanUrlsFuel_nil, scanUrlsFuel_nil]
  | succ f ih =>
      intro f₂ s h1 h2
      match s, f₂, h2 with
      | [], f₂, _ => rw [scanUrlsFuel_nil, scanUrlsFuel_nil]
      | c :: rest, 0, h2 => exact absurd h2 (by simp)
      | c :: rest, g + 1, h2 =>
          simp only [List.length_cons] at h1 h2
          have hr : rest.length ≤ f := by omega
          have hr2 : rest.length ≤ g := by omega
          cases h : httpSchemeLen (c :: rest) with
          | none =>
              rw [scanUrlsFuel_cons_none f c rest h, scanUrlsFuel_cons_none g c rest h]
              exact ih g rest hr hr2
          | some n =>
              by_cases hlt : n < ((c :: rest).takeWhile nonspaceChar).length
              · rw [scanUrlsFuel_cons_hit f c rest n h hlt, scanUrlsFuel_cons_hit g c rest n h hlt]
                have hd : (((c :: rest).drop ((c :: rest).takeWhile nonspaceChar).length)).length
                    = rest.length + 1 - ((c :: rest).takeWhile nonspaceChar).length := by
                  rw [List.length_drop]
                  simp
                congr 1
                refine ih g _ ?_ ?_ <;> rw [hd] <;> omega
              · rw [scanUrlsFuel_cons_short f c rest n h hlt,
                  scanUrlsFuel_cons_short g c rest n h hlt]
                exact ih g rest hr hr2

theorem takeWhile_append_stop (p : Char → Bool) :
    ∀ (l1 : Str) (d : Char) (l2 : Str), (∀ c ∈ l1, p c = true) → p d = false →
      (l1 ++ d :: l2).takeWhile p = l1
  | [], d, l2, _, hd => by simp [List.takeWhile_cons, hd]
  | c :: l1, d, l2, h, hd => by
      have hc : p c = true := h c (by simp)
      rw [List.cons_append, List.takeWhile_cons, if_pos hc,
        takeWhile_append_stop p l1 d l2 (fun x hx => h x (by simp [hx])) hd]

/-- A scheme match at the head survives appending more text, provided the
matched token already extends past the scheme. -/
theorem schemeLen_append {e : Str} {n : Nat} (h : httpSchemeLen e = some n)
    (hn : n < e.length) (z : Str) : httpSchemeLen (e ++ z) = some n := by
  have hez : e <+: e ++ z := ⟨z, rfl⟩
  unfold httpSchemeLen at h ⊢
  by_cases h8 : ("https://".toList).isPrefixOf e = true
  · rw [if_pos h8] at h
    have h8' : ("https://".toList).isPrefixOf (e ++ z) = true :=
      (isPrefixOf_eq_true _ _).mpr (isPre_trans ((isPrefixOf_eq_true _ e).mp h8) hez)
    rw [if_pos h8']
    exact h
  · rw [if_neg h8] at h
    by_cases h7 : ("http://".toList).isPrefixOf e = true
    · rw [if_pos h7] at h
      have hn7 : n = 7 := (Option.some_inj.mp h).symm
      have h7' : ("http://".toList).isPrefixOf (e ++ z) = true :=
        (isPrefixOf_eq_true _ _).mpr (isPre_trans ((isPrefixOf_eq_true _ e).mp h7) hez)
      have h8' : ¬ ("https://".toList).isPrefixOf (e ++ z) = true := by
        intro hc
        apply h8
        refine (isPrefixOf_eq_true _ e).mpr ?_
        refine List.prefix_of_prefix_length_le ((isPrefixOf_eq_true _ _).mp hc) hez ?_
        have hl8 : ("https://".toList).length = 8 := rfl
        omega
      rw [if_neg h8', if_pos h7']
      exact h
    · rw [if_neg h7] at h
      exact absurd h (by simp)

theorem schemeLen_space (w : Str) : httpSchemeLen (' ' :: w) = none := by
  unfold httpSchemeLen
  rw [if_neg, if_neg]
  · intro hc
    obtain ⟨t, ht⟩ := (isPrefixOf_eq_true _ _).mp hc
    rw [show ("http://".toList) = 'h' :: "ttp://".toList from rfl, List.cons_append] at ht
    have hsp : 'h' = ' ' := (List.cons.injEq _ _ _ _ ▸ ht).1
    exact absurd hsp (by decide)
  · intro hc
    obtain ⟨t, ht⟩ := (isPrefixOf_eq_true _ _).mp hc
    rw [show ("https://".toList) = 'h' :: "ttps://".toList from rfl, List.cons_append] at ht
    have hsp : 'h' = ' ' := (List.cons.injEq _ _ _ _ ▸ ht).1
    exact absurd hsp (by decide)

/-- Scanning the space-joined list of good URL tokens returns exactly
those tokens. -/
theorem scanUrls_join : ∀ (es : List Str), (∀ e ∈ es, GoodUrl e) →
    ∀ f, (joinSpace es).length ≤ f → scanUrlsFuel f (joinSpace es) = es
  | [], _, f, _ => by
      rw [show joinSpace [] = [] from rfl, scanUrlsFuel_nil]
  | [e], hg, f, hf => by
      obtain ⟨⟨n, hn, hlt⟩, hns⟩ := hg e (by simp)
      have hj : joinSpace [e] = e := rfl
      rw [hj] at hf ⊢
      match e, f, hn, hlt, hns, hf with
      | [], _, _, hlt, _, _ => exact absurd hlt (by simp)
      | c :: rest, 0, _, _, _, hf => exact absurd hf (by simp)
      | c :: rest, g + 1, hn, hlt, hns, hf =>
          have htok : (c :: rest).takeWhile nonspaceChar = c :: rest :=
            List.takeWhile_eq_self_iff.mpr hns
          rw [scanUrlsFuel_cons_hit g c rest n hn (by rw [htok]; exact hlt), htok,
            List.drop_length, scanUrlsFuel_nil]
  | e :: e2 :: es', hg, f, hf => by
      obtain ⟨⟨n, hn, hlt⟩, hns⟩ := hg e (by simp)
      have hj : joinSpace (e :: e2 :: es') = e ++ ' ' :: joinSpace (e2 :: es') := by
        rw [show joinSpace (e :: e2 :: es') = e ++ [' '] ++ joinSpace (e2 :: es') from rfl,
          List.append_assoc, List.singleton_append]
      rw [hj] at hf ⊢
      match e, f, hn, hlt, hns, hf with
      | [], _, _, hlt, _, _ => exact absurd hlt (by simp)
      | c :: erest, 0, _, _, _, hf => exact absurd hf (by simp)
      | c :: erest, g + 1, hn, hlt, hns, hf =>
          have hscheme : httpSchemeLen ((c :: erest) ++ ' ' :: joinSpace (e2 :: es'))
              = some n := schemeLen_append hn hlt _
          have htok : ((c :: erest) ++ ' ' :: joinSpace (e2 :: es')).takeWhile nonspaceChar
              = c :: erest :=
            takeWhile_append_stop nonspaceChar (c :: erest) ' ' _ hns (by decide)
          rw [List.cons_append] at hscheme htok ⊢
          rw [scanUrlsFuel_cons_hit g c _ n hscheme (by rw [htok]; exact hlt), htok]
          rw [show c :: (erest ++ ' ' :: joinSpace (e2 :: es'))
              = (c :: erest) ++ ' ' :: joinSpace (e2 :: es') from rfl]
          rw [List.drop_left]
          congr 1
          simp only [List.length_append, List.length_cons] at hf
          match g, hf with
          | 0, hf => exact absurd hf (by omega)
          | g' + 1, hf =>
              rw [scanUrlsFuel_cons_none g' ' ' _ (schemeLen_space _)]
              have hrec := scanUrls_join (e2 :: es') (fun x hx => hg x (by simp [hx]))
                (joinSpace (e2 :: es')).length (Nat.le_refl _)
              have hcong := scanUrlsFuel_congr g' (joinSpace (e2 :: es')).length
                (joinSpace (e2 :: es')) (by omega) (Nat.le_refl _)
              rw [hcong]
              exact hrec

/-! ### Stripping lemmas -/

theorem dropWhile_idem (p : Char → Bool) : ∀ l : Str, (l.dropWhile p).dropWhile p = l.dropWhile p
  | [] => rfl
  | c :: l => by
      by_cases hc : p c = true
      · rw [List.dropWhile_cons, if_pos hc]
        exact dropWhile_idem p l
      · rw [List.dropWhile_cons, if_neg hc, List.dropWhile_cons, if_neg hc]

theorem stripUrl_idem (s : Str) : stripUrl (stripUrl s) = stripUrl s := by
  unfold stripUrl
  rw [List.reverse_reverse, dropWhile_idem]

theorem stripUrl_isPre (s : Str) : stripUrl s <+: s := by
  refine ⟨(s.reverse.takeWhile isStripChar).reverse, ?_⟩
  unfold stripUrl
  rw [← List.reverse_append, List.takeWhile_append_dropWhile, List.reverse_reverse]

/-- A scheme (which ends in a slash, never a stripped character) survives
the trailing-punctuation strip. -/
theorem scheme_isPre_stripUrl {P e : Str} (hP : P <+: e) (Pt : Str)
    (hPt : P.reverse = '/' :: Pt) : P <+: stripUrl e := by
  obtain ⟨r, hr⟩ := hP
  subst hr
  unfold stripUrl
  rw [List.reverse_append, List.dropWhile_append]
  by_cases hdw : (r.reverse.dropWhile isStripChar).isEmpty = true
  · rw [if_pos hdw, hPt, List.dropWhile_cons, if_neg (by decide), ← hPt, List.reverse_reverse]
  · rw [if_neg hdw, List.reverse_append, List.reverse_reverse]
    exact ⟨(r.reverse.dropWhile isStripChar).reverse, rfl⟩

/-- Stripping a good URL token yields either a bare scheme or another
good URL token. -/
theorem stripUrl_good {e : Str} (hg : GoodUrl e) :
    stripUrl e = "http://".toList ∨ stripUrl e = "https://".toList ∨ GoodUrl (stripUrl e) := by
  obtain ⟨⟨n, hn, hlt⟩, hns⟩ := hg
  by_cases hlen : n < (stripUrl e).length
  · refine Or.inr (Or.inr ⟨⟨n, ?_, hlen⟩, ?_⟩)
    · exact schemeLen_of_isPre hn _ (stripUrl_isPre e) (Nat.le_of_lt hlen)
    · intro ch hch
      obtain ⟨t, ht⟩ := stripUrl_isPre e
      exact hns ch (ht ▸ List.mem_append.mpr (Or.inl hch))
  · unfold httpSchemeLen at hn
    by_cases h8 : ("https://".toList).isPrefixOf e = true
    · rw [if_pos h8] at hn
      have hn8 : n = 8 := (Option.some_inj.mp hn).symm
      have hPre : ("https://".toList) <+: stripUrl e :=
        scheme_isPre_stripUrl ((isPrefixOf_eq_true _ e).mp h8) ("/:sptth".toList) rfl
      obtain ⟨t, ht⟩ := hPre
      have hlen8 : ("https://".toList).length = 8 := rfl
      have ht0 : t = [] := by
        have hc := congrArg List.length ht
        rw [List.length_append, hlen8] at hc
        refine List.eq_nil_of_length_eq_zero ?_
        omega
      subst ht0
      refine Or.inr (Or.inl ?_)
      rw [← ht, List.append_nil]
    · rw [if_neg h8] at hn
      by_cases h7 : ("http://".toList).isPrefixOf e = true
      · rw [if_pos h7] at hn
        have hn7 : n = 7 := (Option.some_inj.mp hn).symm
        have hPre : ("http://".toList) <+: stripUrl e :=
          scheme_isPre_stripUrl ((isPrefixOf_eq_true _ e).mp h7) ("/:ptth".toList) rfl
        obtain ⟨t, ht⟩ := hPre
        have hlen7 : ("http://".toList).length = 7 := rfl
        have ht0 : t = [] := by
          have hc := congrArg List.length ht
          rw [List.length_append, hlen7] at hc
          refine List.eq_nil_of_length_eq_zero ?_
          omega
        subst ht0
        refine Or.inl ?_
        rw [← ht, List.append_nil]
      · rw [if_neg h7] at hn
        exact absurd hn (by simp)

/-! ### Deduplication lemmas -/

theorem dedupe_sub : ∀ (seen l : List Str) (x : Str), x ∈ dedupeAux seen l → x ∈ l
  | _, [], x, hx => absurd hx (by simp [dedupeAux])
  | seen, y :: ys, x, hx => by
      unfold dedupeAux at hx
      by_cases hy : y ∈ seen
      · rw [if_pos hy] at hx
        exact List.mem_cons_of_mem y (dedupe_sub seen ys x hx)
      · rw [if_neg hy] at hx
        rcases List.mem_cons.mp hx with h | h
        · exact h ▸ List.mem_cons_self y ys
        · exact List.mem_cons_of_mem y (dedupe_sub (y :: seen) ys x h)

theorem dedupe_nodup_notin : ∀ (seen l : List Str),
    (dedupeAux seen l).Nodup ∧ ∀ x ∈ dedupeAux seen l, x ∉ seen
  | _, [] => by simp [dedupeAux]
  | seen, y :: ys => by
      unfold dedupeAux
      by_cases hy : y ∈ seen
      · rw [if_pos hy]
        exact dedupe_nodup_notin seen ys
      · rw [if_neg hy]
        have ih := dedupe_nodup_notin (y :: seen) ys
        constructor
        · rw [List.nodup_cons]
          exact ⟨fun hc => (ih.2 y hc) (List.mem_cons_self _ _), ih.1⟩
        · intro x hx
          rcases List.mem_cons.mp hx with h | h
          · exact h ▸ hy
          · exact fun hxs => (ih.2 x h) (List.mem_cons_of_mem _ hxs)

theorem dedupe_id : ∀ (seen l : List Str), l.Nodup → (∀ x ∈ l, x ∉ seen) → dedupeAux seen l = l
  | _, [], _, _ => rfl
  | seen, y :: ys, hnd, hn => by
      unfold dedupeAux
      rw [if_neg (hn y (List.mem_cons_self _ _))]
      have hnd' := List.nodup_cons.mp hnd
      congr 1
      refine dedupe_id (y :: seen) ys hnd'.2 ?_
      intro x hx hmem
      rcases List.mem_cons.mp hmem with h | h
      · exact hnd'.1 (h ▸ hx)
      · exact hn x (List.mem_cons_of_mem _ hx) h

theorem map_stripUrl_id : ∀ l : List Str, (∀ x ∈ l, stripUrl x = x) → l.map stripUrl = l
  | [], _ => rfl
  | x :: xs, h => by
      rw [List.map_cons, h x (by simp), map_stripUrl_id xs (fun y hy => h y (by simp [hy]))]

/-! ## Worker event stream and the `close` handler of `runSubagentTask`

Each line of worker stdout is parsed as JSON; malformed lines are
skipped (modelled as `otherEvent`).  On a `message_end` event for an
assistant message, the joined, trimmed text of the message's text blocks
is pushed onto `assistantOutputs` when nonempty.  On process close the
task result is assembled: the output is the *last* collected assistant
text, the stderr text is replaced by the `aborted` sentinel when the
cancellation listener fired, and a missing exit code maps to 1. -/

inductive MessageRole
  | user
  | assistant
  | system
  | toolResult
deriving DecidableEq

inductive ContentBlock
  | text (s : Str)
  | toolCall (name : Str)
  | thinking (s : Str)
deriving DecidableEq

structure AgentMessage where
  role : MessageRole
  content : List ContentBlock
deriving DecidableEq

inductive StreamEvent
  | messageEnd (m : AgentMessage)
  | toolResultEnd (m : AgentMessage)
  | otherEvent
deriving DecidableEq

def textBlocks (content : List ContentBlock) : List Str :=
  content.filterMap (fun b => match b with | .text s => some s | _ => none)

/-- Port of `getAssistantText`: empty for non-assistant messages, else
the message's text blocks joined with a newline and trimmed. -/
def getAssistantText (m : AgentMessage) : Str :=
  if m.role = .assistant then trimChars (joinWith ['\n'] (textBlocks m.content)) else []

/-- The effect of `processLine` on the `assistantOutputs` array: a
`message_end` assistant event with nonempty text pushes that text. -/
def pushAssistantOutput (outputs : List Str) (e : StreamEvent) : List Str :=
  match e with
  | .messageEnd m =>
      if m.role = .assistant then
        let t := getAssistantText m
        if t.length > 0 then outputs ++ [t] else outputs
      else outputs
  | _ => outputs

def assistantOutputs (events : List StreamEvent) : List Str :=
  events.foldl pushAssistantOutput []

/-- Port of the `close` handler of `runSubagentTask`: assembles the
final `SubagentTaskResult` from the collected stream state. -/
def closeTaskResult (task : NormalizedSubagentTask) (cwd : Str) (events : List StreamEvent)
    (aborted : Bool) (code : Option Int) (stderrAcc : Str)
    (activities : List SubagentActivity) (startedAt finishedAt : Nat)
    (steeringNotes : List Str) : SubagentTaskResult :=
  let outputs := assistantOutputs events
  let output := (outputs.getLast?).getD []
  { taskId := task.id
    task := task.prompt
    cwd := cwd
    output := output
    references := extractReferences output
    exitCode := code.getD 1
    stderr := if aborted then "aborted".toList else stderrAcc
    activities := activities
    startedAt := startedAt
    finishedAt := finishedAt
    steeringNotes := steeringNotes }

/-- The contribution of one event to `assistantOutputs`. -/
def assistantTextOfEvent (e : StreamEvent) : Option Str :=
  match e with
  | .messageEnd m =>
      if m.role = .assistant ∧ (getAssistantText m).length > 0 then some (getAssistantText m)
      else none
  | _ => none

/-- Spec-side reading of C7 at individual text-block granularity: the
last assistant text *block* observed on the event stream (blocks taken
one by one, not joined per message). -/
def specLastAssistantTextBlock (events : List StreamEvent) : Str :=
  (((events.filterMap (fun e => match e with
      | .messageEnd m => if m.role = .assistant then some (textBlocks m.content) else none
      | _ => none)).flatten).getLast?).getD []

theorem pushAssistantOutput_eq (outputs : List Str) (e : StreamEvent) :
    pushAssistantOutput outputs e = outputs ++ (assistantTextOfEvent e).toList := by
  cases e with
  | messageEnd m =>
      by_cases hrole : m.role = .assistant
      · by_cases hlen : (getAssistantText m).length > 0
        · simp [pushAssistantOutput, assistantTextOfEvent, hrole, hlen]
        · simp [pushAssistantOutput, assistantTextOfEvent, hrole, hlen]
      · simp [pushAssistantOutput, assistantTextOfEvent, hrole]
  | toolResultEnd m => simp [pushAssistantOutput, assistantTextOfEvent]
  | otherEvent => simp [pushAssistantOutput, assistantTextOfEvent]

theorem foldl_pushAssistantOutput :
    ∀ (events : List StreamEvent) (acc : List Str),
      events.foldl pushAssistantOutput acc = acc ++ events.filterMap assistantTextOfEvent
  | [], acc => by simp
  | e :: rest, acc => by
      rw [List.foldl_cons, foldl_pushAssistantOutput rest _, pushAssistantOutput_eq]
      cases h : assistantTextOfEvent e with
      | none => simp [List.filterMap_cons, h]
      | some t => simp [List.filterMap_cons, h]

/-! ## Steering (`steer_subagent` tool `execute`, validation stage) -/

def steerRequiredText : Str := "runId, taskId, and instruction are required.".toList

/-- The unknown-run error message built by the tool (ids joined with a
comma and space, or the no-prior-runs variant). -/
def unknownRunText (runId : Str) (knownRunIds : List Str) : Str :=
  if knownRunIds.length > 0 then
    "Unknown runId \"".toList ++ runId ++ "\". Known runIds: ".toList
      ++ joinWith (", ".toList) knownRunIds
  else
    "Unknown runId \"".toList ++ runId ++ "\". No prior subagent runs are available.".toList

/-- The unknown-task error message built by the tool. -/
def unknownTaskText (taskId runId : Str) (knownTaskIds : List Str) : Str :=
  "Unknown taskId \"".toList ++ taskId ++ "\" for run ".toList ++ runId
    ++ ". Known taskIds: ".toList ++ joinWith (", ".toList) knownTaskIds

inductive SteerOutcome
  | missingParams (text : Str)
  | unknownRun (text : Str)
  | unknownTask (text : Str)
  | proceed (run : SubagentRunRecord) (taskIndex : Nat)
deriving DecidableEq

/-- Only the `proceed` outcome goes on to spawn the external worker
process (`runSubagentTask`); every other outcome returns immediately. -/
def SteerOutcome.invokesWorker : SteerOutcome → Bool
  | .proceed _ _ => true
  | _ => false

/-- The first three outcomes are returned with `isError: true`. -/
def SteerOutcome.isError : SteerOutcome → Bool
  | .proceed _ _ => false
  | _ => true

/-- The validation stage of the `steer_subagent` `execute` body: trim the
parameters, reject missing ones, look the run up by id, then locate the
task inside the run.  The second component of the result is the registry
as left behind by this stage (never mutated here; mutation happens only
after a successful worker re-run). -/
def steerSubagentCheck (registry : SubagentRegistry) (runIdRaw taskIdRaw instructionRaw : Str) :
    SteerOutcome × SubagentRegistry :=
  let runId := trimChars runIdRaw
  let taskId := trimChars taskIdRaw
  let instruction := trimChars instructionRaw
  if runId = [] ∨ taskId = [] ∨ instruction = [] then
    (.missingParams steerRequiredText, registry)
  else
    match mapGet registry runId with
    | none => (.unknownRun (unknownRunText runId (registry.map Prod.fst)), registry)
    | some run =>
        match run.tasks.findIdx? (fun t => t.taskId = taskId) with
        | none =>
            (.unknownTask (unknownTaskText taskId runId (run.tasks.map SubagentTaskResult.taskId)),
              registry)
        | some i => (.proceed run i, registry)

/-! ### Infix-of-join lemmas used to show the error text lists the known
ids -/

theorem infix_append_str {l m : Str} (s : Str) (h : l <:+: m) : l <:+: s ++ m := by
  obtain ⟨u, v, huv⟩ := h
  exact ⟨s ++ u, v, by rw [← huv]; simp [List.append_assoc]⟩

theorem mem_infix_joinWith (sep : Str) :
    ∀ (xs : List Str) (x : Str), x ∈ xs → x <:+: joinWith sep xs
  | [], x, hx => absurd hx (List.not_mem_nil x)
  | [y], x, hx => by
      have hxy : x = y := by simpa using hx
      subst hxy
      exact ⟨[], [], by simp [joinWith]⟩
  | y :: z :: rest, x, hx => by
      rcases List.mem_cons.mp hx with h | h
      · subst h
        show x <:+: x ++ sep ++ joinWith sep (z :: rest)
        exact ⟨[], sep ++ joinWith sep (z :: rest), by simp [List.append_assoc]⟩
      · have ih := mem_infix_joinWith sep (z :: rest) x h
        show x <:+: y ++ sep ++ joinWith sep (z :: rest)
        rw [List.append_assoc]
        exact infix_append_str y (infix_append_str sep ih)

/-! ## Theorems -/

/-- **C4.** Steering with an unknown runId returns an error result whose
text lists the known run ids and leaves the registry unchanged; steering
a known run with an unknown taskId returns an error whose text lists that
run's known task ids and leaves the registry (and so the stored run
record) untouched; in neither case is the external worker invoked. -/
theorem steerSubagentCheck_errors (registry : SubagentRegistry)
    (runIdRaw taskIdRaw instructionRaw : Str)
    (hrun : trimChars runIdRaw ≠ []) (htask : trimChars taskIdRaw ≠ [])
    (hinstr : trimChars instructionRaw ≠ []) :
    (mapGet registry (trimChars runIdRaw) = none →
      steerSubagentCheck registry runIdRaw taskIdRaw instructionRaw
        = (.unknownRun (unknownRunText (trimChars runIdRaw) (registry.map Prod.fst)), registry) ∧
      (∀ k ∈ registry.map Prod.fst,
        k <:+: unknownRunText (trimChars runIdRaw) (registry.map Prod.fst)) ∧
      (SteerOutcome.unknownRun
        (unknownRunText (trimChars runIdRaw) (registry.map Prod.fst))).isError = true ∧
      (SteerOutcome.unknownRun
        (unknownRunText (trimChars runIdRaw) (registry.map Prod.fst))).invokesWorker = false) ∧
    (∀ run, mapGet registry (trimChars runIdRaw) = some run →
      (∀ t ∈ run.tasks, t.taskId ≠ trimChars taskIdRaw) →
      steerSubagentCheck registry runIdRaw taskIdRaw instructionRaw
        = (.unknownTask (unknownTaskText (trimChars taskIdRaw) (trimChars runIdRaw)
            (run.tasks.map SubagentTaskResult.taskId)), registry) ∧
      (∀ t ∈ run.tasks,
        t.taskId <:+: unknownTaskText (trimChars taskIdRaw) (trimChars runIdRaw)
          (run.tasks.map SubagentTaskResult.taskId)) ∧
      (SteerOutcome.unknownTask (unknownTaskText (trimChars taskIdRaw) (trimChars runIdRaw)
          (run.tasks.map SubagentTaskResult.taskId))).isError = true ∧
      (SteerOutcome.unknownTask (unknownTaskText (trimChars taskIdRaw) (trimChars runIdRaw)
          (run.tasks.map SubagentTaskResult.taskId))).invokesWorker = false) := by
  have hcond : ¬ (trimChars runIdRaw = [] ∨ trimChars taskIdRaw = [] ∨
      trimChars instructionRaw = []) := by
    rw [not_or, not_or]
    exact ⟨hrun, htask, hinstr⟩
  constructor
  · intro hnone
    refine ⟨?_, ?_, rfl, rfl⟩
    · unfold steerSubagentCheck
      rw [if_neg hcond, hnone]
    · intro k hk
      unfold unknownRunText
      have hpos : (registry.map Prod.fst).length > 0 := by
        cases hreg : registry.map Prod.fst with
        | nil => rw [hreg] at hk; simp at hk
        | cons a l => simp [hreg]
      rw [if_pos hpos]
      rw [List.append_assoc, List.append_assoc]
      exact infix_append_str _ (infix_append_str _ (infix_append_str _
        (mem_infix_joinWith _ _ k hk)))
  · intro run hsome htasks
    have hfind : run.tasks.findIdx? (fun t => t.taskId = trimChars taskIdRaw) = none := by
      rw [List.findIdx?_eq_none_iff]
      intro t ht
      simpa using htasks t ht
    refine ⟨?_, ?_, rfl, rfl⟩
    · unfold steerSubagentCheck
      rw [if_neg hcond, hsome]
      simp only [hfind]
    · intro t ht
      unfold unknownTaskText
      rw [List.append_assoc, List.append_assoc, List.append_assoc, List.append_assoc]
      exact infix_append_str _ (infix_append_str _ (infix_append_str _ (infix_append_str _
        (infix_append_str _
          (mem_infix_joinWith _ _ t.taskId (List.mem_map_of_mem SubagentTaskResult.taskId ht))))))

/-- Witness for C4: steering an empty registry with a syntactically valid
but unknown runId yields the unknown-run error and leaves the registry
empty. -/
theorem steerSubagentCheck_errors_witness :
    steerSubagentCheck [] ("run-x".toList) ("t1".toList) ("go".toList)
      = (.unknownRun (unknownRunText ("run-x".toList) []), []) :=
  ((steerSubagentCheck_errors [] ("run-x".toList) ("t1".toList) ("go".toList)
    (by decide) (by decide) (by decide)).1 rfl).1

/-- **C5 (counterexample).** Extraction is *not* idempotent as claimed:
for the text `http://)` the single extracted entry is the bare scheme
`http://` (the trailing parenthesis is stripped), and re-extracting the
joined output finds no URL at all, because the regex requires at least
one non-whitespace character after the scheme. -/
theorem extractReferences_not_idempotent :
    ¬ extractReferences (joinSpace (extractReferences ("http://)".toList)))
      = extractReferences ("http://)".toList) := by decide

/-- **C5 (amended).** `extractReferences` finds the scheme-prefixed
greedy non-whitespace matches, strips trailing `)`, `,`, `.`, `;` and
deduplicates preserving first-seen order — for a text with the same URL
twice and one distinct URL it yields exactly those two entries in
first-seen order — and extraction is idempotent on the joined output
*provided* no extracted entry degenerates to a bare `http://` or
`https://` scheme. -/
theorem extractReferences_spec :
    (extractReferences ("see http://a.com http://b.org and http://a.com".toList)
      = ["http://a.com".toList, "http://b.org".toList]) ∧
    (∀ text : Str,
      (∀ e ∈ extractReferences text, e ≠ "http://".toList ∧ e ≠ "https://".toList) →
      extractReferences (joinSpace (extractReferences text)) = extractReferences text) := by
  constructor
  · decide
  · intro text hbare
    have hmem : ∀ x ∈ extractReferences text, ∃ e ∈ scanUrls text, stripUrl e = x := by
      intro x hx
      have hx' := dedupe_sub _ _ x hx
      obtain ⟨e, he, hxe⟩ := List.mem_map.mp hx'
      exact ⟨e, he, hxe⟩
    have hgood : ∀ x ∈ extractReferences text, GoodUrl x := by
      intro x hx
      obtain ⟨e, he, hxe⟩ := hmem x hx
      have hge := scanUrls_entries text.length text e he
      rcases stripUrl_good hge with h | h | h
      · rw [hxe] at h
        exact absurd h (hbare x hx).1
      · rw [hxe] at h
        exact absurd h (hbare x hx).2
      · exact hxe ▸ h
    have hfix : ∀ x ∈ extractReferences text, stripUrl x = x := by
      intro x hx
      obtain ⟨e, he, hxe⟩ := hmem x hx
      rw [← hxe, stripUrl_idem]
    have hnd := (dedupe_nodup_notin [] ((scanUrls text).map stripUrl)).1
    show dedupeAux [] ((scanUrls (joinSpace (extractReferences text))).map stripUrl)
        = extractReferences text
    rw [show scanUrls (joinSpace (extractReferences text)) = extractReferences text from
      scanUrls_join (extractReferences text) hgood _ (Nat.le_refl _)]
    rw [map_stripUrl_id _ hfix]
    exact dedupe_id [] _ hnd (by simp)

/-- Witness for C5: on a concrete text with a duplicated URL, re-running
extraction on the joined output is the identity. -/
theorem extractReferences_spec_witness :
    extractReferences
        (joinSpace (extractReferences ("http://a.com x http://a.com http://b.org".toList)))
      = extractReferences ("http://a.com x http://a.com http://b.org".toList) :=
  extractReferences_spec.2 ("http://a.com x http://a.com http://b.org".toList) (by decide)

/-- **C1.** For every input list and every concurrency value, whenever a
schedule (an arbitrary interleaving of worker steps, covering every
completion order) runs the pool to completion, `runWithConcurrencyLimit`
holds exactly one result per input with the element at position `i`
equal to the runner's value for the `i`-th input — the sequential map of
the runner — independent of the schedule; the empty input returns an
empty array without spawning any workers; and a completing schedule
exists for every input (so the hypothesis is always satisfiable). -/
theorem runWithConcurrencyLimit_spec {TIn TOut : Type} (items : List TIn) (concurrency : Int)
    (runner : TIn → Nat → TOut) (schedule : List Nat)
    (hfin : poolFinished
      (runPoolSchedule items runner (subagentLimit concurrency items.length) schedule)
      items.length) :
    (runWithConcurrencyLimit items concurrency runner schedule).length = items.length ∧
    (∀ i : Nat, i < items.length →
      (runWithConcurrencyLimit items concurrency runner schedule)[i]?
        = some ((items[i]?).map (fun a => runner a i))) ∧
    runWithConcurrencyLimit ([] : List TIn) concurrency runner schedule = [] ∧
    spawnedWorkers ([] : List TIn) concurrency = 0 ∧
    poolFinished
      (runPoolSchedule items runner (subagentLimit concurrency items.length)
        (List.replicate (2 * items.length) 0))
      items.length := by
  have hinv : poolInv items runner
      (runPoolSchedule items runner (subagentLimit concurrency items.length) schedule) := by
    unfold runPoolSchedule
    exact poolInv_foldl items runner schedule _
      (poolInv_init items runner (subagentLimit concurrency items.length))
  obtain ⟨hlen, _, _, hslots⟩ := hinv
  obtain ⟨hdone, hpend⟩ := hfin
  have hexists := pool_seq_finishes items runner
    (subagentLimit concurrency items.length) (subagentLimit_pos concurrency items.length)
  by_cases hnil : items.length = 0
  · have hempty : items = [] := List.eq_nil_of_length_eq_zero hnil
    subst hempty
    refine ⟨?_, ?_, ?_, ?_, hexists⟩
    · show (runWithConcurrencyLimit [] concurrency runner schedule).length = 0
      rw [show runWithConcurrencyLimit ([] : List TIn) concurrency runner schedule
          = ([] : List (Option TOut)) from by
        unfold runWithConcurrencyLimit
        rw [if_pos (show ([] : List TIn).length = 0 from rfl)]]
      rfl
    · intro i hi
      exact absurd hi (by omega)
    · unfold runWithConcurrencyLimit
      rw [if_pos (show ([] : List TIn).length = 0 from rfl)]
    · unfold spawnedWorkers
      rw [if_pos (show ([] : List TIn).length = 0 from rfl)]
  · have hrun : runWithConcurrencyLimit items concurrency runner schedule
        = (runPoolSchedule items runner (subagentLimit concurrency items.length)
            schedule).results := by
      unfold runWithConcurrencyLimit
      rw [if_neg hnil]
    refine ⟨by rw [hrun]; exact hlen, ?_, ?_, ?_, hexists⟩
    · intro i hi
      rw [hrun]
      rcases hslots i (by omega) with hres | ⟨w, hw⟩
      · exact hres
      · have := hpend (some i) (List.getElem?_mem hw)
        exact absurd this (by simp)
    · unfold runWithConcurrencyLimit
      rw [if_pos (show ([] : List TIn).length = 0 from rfl)]
    · unfold spawnedWorkers
      rw [if_pos (show ([] : List TIn).length = 0 from rfl)]

/-- Witness for C1: three concrete items under concurrency 2 with an
interleaved two-worker schedule produce the positional results. -/
theorem runWithConcurrencyLimit_spec_witness :
    (runWithConcurrencyLimit [5, 6, 7] 2 (fun a i => a * 10 + i) [0, 1, 0, 1, 0, 0]).length
      = ([5, 6, 7] : List Nat).length :=
  (runWithConcurrencyLimit_spec [5, 6, 7] 2 (fun a i => a * 10 + i) [0, 1, 0, 1, 0, 0]
    (by decide)).1

/-- **C2.** `normalizeSubagentTasks` returns one normalized task per
input in input order (prompt and cwd preserved), with ids that are all
non-empty and mutually unique: each id is the first non-colliding
candidate among the slugified caller id (or the `task-<1-based index>`
fallback when the slug is empty) followed by `-2`, `-3`, ... suffixes,
tried against the ids already assigned earlier in the same call; the
operation is total (never fails). -/
theorem normalizeSubagentTasks_spec (tasks : List SubagentTask) :
    (normalizeSubagentTasks tasks).length = tasks.length ∧
    (∀ i t, tasks[i]? = some t → ∃ nt, (normalizeSubagentTasks tasks)[i]? = some nt ∧
      nt.prompt = t.prompt ∧ nt.cwd = t.cwd ∧
      nt.id = freshTaskId (taskIdBase t.id i)
        ((((normalizeSubagentTasks tasks).take i).map NormalizedSubagentTask.id).reverse)) ∧
    (∀ nt ∈ normalizeSubagentTasks tasks, nt.id ≠ []) ∧
    ((normalizeSubagentTasks tasks).map NormalizedSubagentTask.id).Nodup := by
  have h := normalizeGo_spec tasks 0 []
  refine ⟨h.1, ?_, fun nt hnt => (h.2.2.1 nt hnt).2, h.2.2.2⟩
  intro i t ht
  obtain ⟨nt, hnt, hp, hc, hid⟩ := h.2.1 i t ht
  refine ⟨nt, hnt, hp, hc, ?_⟩
  rw [hid, Nat.zero_add, List.append_nil]
  rfl

/-- **C7 (counterexample).** The recorded output is *not* the last
assistant text block of the stream: a single assistant message with two
text blocks `a` and `b` yields the output `a\nb` (the message's blocks
joined with a newline), while the last text block observed is `b`. -/
theorem closeTaskResult_output_not_last_block :
    ¬ (closeTaskResult { id := "t".toList, prompt := "p".toList, cwd := none } ("w".toList)
        [.messageEnd { role := .assistant, content := [.text ("a".toList), .text ("b".toList)] }]
        false (some 0) [] [] 0 0 []).output
      = specLastAssistantTextBlock
          [.messageEnd { role := .assistant, content := [.text ("a".toList), .text ("b".toList)] }] := by
  decide

/-- **C7 (amended).** The final output recorded in the task result is the
text of the *last* assistant message whose (newline-joined, trimmed)
text was nonempty — not a concatenation across messages — and the empty
string when no assistant text was observed. -/
theorem closeTaskResult_output (task : NormalizedSubagentTask) (cwd : Str)
    (events : List StreamEvent) (aborted : Bool) (code : Option Int) (stderrAcc : Str)
    (activities : List SubagentActivity) (startedAt finishedAt : Nat)
    (steeringNotes : List Str) :
    (closeTaskResult task cwd events aborted code stderrAcc activities startedAt finishedAt
        steeringNotes).output
      = ((events.filterMap assistantTextOfEvent).getLast?).getD [] ∧
    ((∀ e ∈ events, assistantTextOfEvent e = none) →
      (closeTaskResult task cwd events aborted code stderrAcc activities startedAt finishedAt
          steeringNotes).output = []) := by
  have hout : (closeTaskResult task cwd events aborted code stderrAcc activities startedAt
      finishedAt steeringNotes).output
      = ((events.filterMap assistantTextOfEvent).getLast?).getD [] := by
    show ((assistantOutputs events).getLast?).getD [] = _
    unfold assistantOutputs
    rw [foldl_pushAssistantOutput events [], List.nil_append]
  refine ⟨hout, ?_⟩
  intro hnone
  rw [hout, List.filterMap_eq_nil_iff.mpr hnone]
  rfl

/-- Witness for C7: with two assistant messages `a` then `b`, the
recorded output is the last message's text. -/
theorem closeTaskResult_output_witness :
    (closeTaskResult { id := "t".toList, prompt := "p".toList, cwd := none } ("w".toList)
        [.messageEnd { role := .assistant, content := [.text ("a".toList)] },
         .messageEnd { role := .assistant, content := [.text ("b".toList)] }]
        false (some 0) [] [] 0 0 []).output
      = ((([.messageEnd { role := .assistant, content := [.text ("a".toList)] },
           .messageEnd { role := .assistant, content := [.text ("b".toList)] }]
            : List StreamEvent).filterMap assistantTextOfEvent).getLast?).getD [] :=
  (closeTaskResult_output { id := "t".toList, prompt := "p".toList, cwd := none } ("w".toList)
    [.messageEnd { role := .assistant, content := [.text ("a".toList)] },
     .messageEnd { role := .assistant, content := [.text ("b".toList)] }]
    false (some 0) [] [] 0 0 []).1

/-- **C8 (counterexample).** An aborted task is *not* always a failed
result: the close handler keeps the actual exit code, so a worker that
traps the termination signal and still exits 0 yields exit code 0 with
the `aborted` stderr marker. -/
theorem closeTaskResult_aborted_not_always_failed :
    (closeTaskResult { id := "t".toList, prompt := "p".toList, cwd := none } ("w".toList) []
        true (some 0) ("junk".toList) [] 0 0 []).exitCode = 0 ∧
    (closeTaskResult { id := "t".toList, prompt := "p".toList, cwd := none } ("w".toList) []
        true (some 0) ("junk".toList) [] 0 0 []).stderr = "aborted".toList := by
  decide

/-- **C8 (amended).** Whenever the cancellation signal fired before the
worker closed, the result's stderr is exactly the `aborted` sentinel
regardless of accumulated stderr, the exit code is the worker's exit
code with a missing code mapped to 1, and the result is failed unless
the terminated worker still reported exit code 0. -/
theorem closeTaskResult_aborted (task : NormalizedSubagentTask) (cwd : Str)
    (events : List StreamEvent) (code : Option Int) (stderrAcc : Str)
    (activities : List SubagentActivity) (startedAt finishedAt : Nat)
    (steeringNotes : List Str) :
    (closeTaskResult task cwd events true code stderrAcc activities startedAt finishedAt
        steeringNotes).stderr = "aborted".toList ∧
    (closeTaskResult task cwd events true code stderrAcc activities startedAt finishedAt
        steeringNotes).exitCode = code.getD 1 ∧
    (code = some 0 ∨
      (closeTaskResult task cwd events true code stderrAcc activities startedAt finishedAt
          steeringNotes).exitCode ≠ 0) := by
  refine ⟨rfl, rfl, ?_⟩
  cases code with
  | none =>
      right
      show (1 : Int) ≠ 0
      decide
  | some c =>
      by_cases hc : c = 0
      · exact Or.inl (by rw [hc])
      · right
        show c ≠ 0
        exact hc

/-- Witness for C8: a concrete aborted close with no exit code reports
the `aborted` sentinel. -/
theorem closeTaskResult_aborted_witness :
    (closeTaskResult { id := "t".toList, prompt := "p".toList, cwd := none } ("w".toList) []
        true none ("junk".toList) [] 0 0 []).stderr = "aborted".toList :=
  (closeTaskResult_aborted { id := "t".toList, prompt := "p".toList, cwd := none } ("w".toList)
    [] none ("junk".toList) [] 0 0 []).1

/-- **C3.** The run registry holds at most 20 records after every
`rememberSubagentRun` (for every reachable registry: within capacity,
with the nonempty run ids the program generates); the operation
inserts/overwrites by run id and evicts in insertion order; in
particular, after inserting 21 records with distinct run ids the
first-inserted id is no longer retrievable and the 20 most recent all
are. -/
theorem rememberSubagentRun_spec :
    (∀ (m : SubagentRegistry) (run : SubagentRunRecord),
        m.length ≤ 20 → (∀ k ∈ m.map Prod.fst, k ≠ []) → run.runId ≠ [] →
        (rememberSubagentRun m run).length ≤ 20 ∧
        mapGet (rememberSubagentRun m run) run.runId = some run) ∧
    (∀ runs : List SubagentRunRecord, runs.length = 21 →
        (runs.map SubagentRunRecord.runId).Nodup → (∀ r ∈ runs, r.runId ≠ []) →
        (∀ r0, runs[0]? = some r0 →
          mapGet (runs.foldl rememberSubagentRun []) r0.runId = none) ∧
        (∀ i r, 1 ≤ i → runs[i]? = some r →
          mapGet (runs.foldl rememberSubagentRun []) r.runId = some r)) := by
  constructor
  · intro m run hlen hkeys hrid
    by_cases hmem : run.runId ∈ m.map Prod.fst
    · have hkeys' := keys_mapSet_of_mem m run.runId run hmem
      have hlen' : (mapSet m run.runId run).length ≤ 20 := by
        have := congrArg List.length hkeys'
        simp only [List.length_map] at this
        omega
      have hres : rememberSubagentRun m run = mapSet m run.runId run := by
        unfold rememberSubagentRun
        exact evictLoop_of_le _ hlen'
      rw [hres]
      exact ⟨hlen', mapGet_mapSet_self m run.runId run⟩
    · have hset := mapSet_of_not_mem m run.runId run hmem
      rcases Nat.lt_or_ge m.length 20 with hlt | hge
      · have hlen' : (m ++ [(run.runId, run)]).length ≤ 20 := by
          simp only [List.length_append, List.length_cons, List.length_nil]
          omega
        have hres : rememberSubagentRun m run = m ++ [(run.runId, run)] := by
          unfold rememberSubagentRun
          rw [hset]
          exact evictLoop_of_le _ hlen'
        rw [hres]
        refine ⟨hlen', ?_⟩
        rw [← hset]
        exact mapGet_mapSet_self m run.runId run
      · have hm20 : m.length = 20 := Nat.le_antisymm hlen hge
        match m, hm20, hkeys, hmem, hset with
        | p :: mtail, hm20, hkeys, hmem, hset =>
          have h21 : ((p.1, p.2) :: (mtail ++ [(run.runId, run)])).length = 21 := by
            simp only [List.length_cons, List.length_append, List.length_nil]
            simp only [List.length_cons] at hm20
            omega
          have hres : rememberSubagentRun (p :: mtail) run = mtail ++ [(run.runId, run)] := by
            unfold rememberSubagentRun
            rw [hset]
            show evictLoop ((p.1, p.2) :: (mtail ++ [(run.runId, run)])) = _
            exact evictLoop_of_21 p.1 p.2 _ (hkeys p.1 (by simp)) h21
          rw [hres]
          constructor
          · simp only [List.length_append, List.length_cons, List.length_nil]
            simp only [List.length_cons] at hm20
            omega
          · have hm : run.runId ∉ mtail.map Prod.fst := by
              intro hh
              exact hmem (by simp [hh])
            rw [← mapSet_of_not_mem mtail run.runId run hm]
            exact mapGet_mapSet_self mtail run.runId run
  · intro runs h21 hnd hids
    have hfold := foldl_remember_drop runs [] (by simp) (by simp) hids (by simpa using hnd)
    simp only [List.nil_append, List.length_nil, Nat.zero_add, h21] at hfold
    match runs, h21, hnd, hids, hfold with
    | r0 :: rest, h21, hnd, hids, hfold =>
      simp only [List.map_cons] at hfold
      have hdrop : ((r0.runId, r0) :: rest.map (fun r => (r.runId, r))).drop (21 - 20)
          = rest.map (fun r => (r.runId, r)) := by
        rfl
      rw [hdrop] at hfold
      rw [List.map_cons] at hnd
      have hndc := List.nodup_cons.mp hnd
      constructor
      · intro q0 hq0
        have hq : q0 = r0 := by
          rw [List.getElem?_cons_zero] at hq0
          exact (Option.some_inj.mp hq0).symm
        subst hq
        rw [hfold, mapGet_eq_none_iff]
        intro hh
        apply hndc.1
        have : q0.runId ∈ (rest.map (fun r => (r.runId, r))).map Prod.fst := hh
        simpa [List.map_map, Function.comp] using this
      · intro i r hi hir
        match i, hi with
        | i + 1, _ =>
          rw [List.getElem?_cons_succ] at hir
          have hr : r ∈ rest := by
            have := List.getElem?_eq_some.mp hir
            obtain ⟨hlt, hget⟩ := this
            exact hget ▸ List.getElem_mem hlt
          rw [hfold]
          exact mapGet_map_pair rest hndc.2 r hr

def c3Runs : List SubagentRunRecord :=
  (List.range 21).map (fun i => { runId := 'r' :: decChars (i + 1), createdAt := 0, tasks := [] })

/-- Witness for C3: inserting 21 concrete distinct runs evicts the first
one. -/
theorem rememberSubagentRun_spec_witness :
    mapGet (c3Runs.foldl rememberSubagentRun []) ['r', '1'] = none :=
  (rememberSubagentRun_spec.2 c3Runs (by decide) (by decide) (by decide)).1
    { runId := ['r', '1'], createdAt := 0, tasks := [] } (by decide)

/-- **C10.** `rememberSubagentRun` with an already-present runId replaces
the record without moving it to the newest insertion position; a run
re-stored after a steer keeps its eviction priority and is still evicted
as the oldest record once capacity is exceeded. -/
theorem rememberSubagentRun_overwrite_keeps_position :
    (∀ (m : SubagentRegistry) (k : Str) (v : SubagentRunRecord),
        k ∈ m.map Prod.fst → (mapSet m k v).map Prod.fst = m.map Prod.fst) ∧
    (∀ (m : SubagentRegistry) (run : SubagentRunRecord),
        m.length ≤ 20 → run.runId ∈ m.map Prod.fst →
        (rememberSubagentRun m run).map Prod.fst = m.map Prod.fst) ∧
    (∀ (m : SubagentRegistry) (run f : SubagentRunRecord),
        m.length = 20 → (∀ k ∈ m.map Prod.fst, k ≠ []) →
        (m.map Prod.fst).Nodup →
        (m.map Prod.fst)[0]? = some run.runId →
        f.runId ∉ m.map Prod.fst → f.runId ≠ [] →
        mapGet (rememberSubagentRun (rememberSubagentRun m run) f) run.runId = none) := by
  refine ⟨keys_mapSet_of_mem, ?_, ?_⟩
  · intro m run hlen hmem
    have hkeys' := keys_mapSet_of_mem m run.runId run hmem
    have hlen' : (mapSet m run.runId run).length ≤ 20 := by
      have := congrArg List.length hkeys'
      simp only [List.length_map] at this
      omega
    unfold rememberSubagentRun
    rw [evictLoop_of_le _ hlen']
    exact hkeys'
  · intro m run f hm20 hkeys hnd h0 hfresh hfid
    match m, hm20, hkeys, hnd, h0, hfresh with
    | p :: mtail, hm20, hkeys, hnd, h0, hfresh =>
      have hp1 : p.1 = run.runId := by
        simp only [List.map_cons, List.getElem?_cons_zero, Option.some_inj] at h0
        exact h0
      have hm1 : mapSet (p :: mtail) run.runId run = (p.1, run) :: mtail := by
        show (if p.1 = run.runId then (p.1, run) :: mtail
            else (p.1, p.2) :: mapSet mtail run.runId run) = (p.1, run) :: mtail
        rw [if_pos hp1]
      have hlen1 : (mapSet (p :: mtail) run.runId run).length ≤ 20 := by
        rw [hm1]
        simp only [List.length_cons]
        simp only [List.length_cons] at hm20
        omega
      have hstep1 : rememberSubagentRun (p :: mtail) run = (p.1, run) :: mtail := by
        unfold rememberSubagentRun
        rw [evictLoop_of_le _ hlen1, hm1]
      have hfresh1 : f.runId ∉ ((p.1, run) :: mtail).map Prod.fst := by
        intro hh
        apply hfresh
        simpa using hh
      have hset2 := mapSet_of_not_mem ((p.1, run) :: mtail) f.runId f hfresh1
      have h21 : ((p.1, run) :: (mtail ++ [(f.runId, f)])).length = 21 := by
        simp only [List.length_cons, List.length_append, List.length_nil]
        simp only [List.length_cons] at hm20
        omega
      have hstep2 : rememberSubagentRun ((p.1, run) :: mtail) f = mtail ++ [(f.runId, f)] := by
        unfold rememberSubagentRun
        rw [hset2]
        show evictLoop ((p.1, run) :: (mtail ++ [(f.runId, f)])) = _
        exact evictLoop_of_21 p.1 run _ (hkeys p.1 (by simp)) h21
      rw [hstep1, hstep2, mapGet_eq_none_iff]
      simp only [List.map_append, List.map_cons, List.map_nil, List.mem_append,
        List.mem_singleton, not_or]
      rw [List.map_cons] at hnd
      have hnd' := List.nodup_cons.mp hnd
      constructor
      · intro hh
        rw [← hp1] at hh
        exact hnd'.1 hh
      · intro hh
        apply hfresh
        rw [List.map_cons]
        have hfp : f.runId = p.1 := by rw [hp1, ← hh]
        rw [hfp]
        exact List.mem_cons_self _ _

def c10Registry : SubagentRegistry :=
  (List.range 20).map
    (fun i => ('k' :: decChars (i + 1), { runId := 'k' :: decChars (i + 1), createdAt := 0, tasks := [] }))

/-- Witness for C10: a registry of 20 records whose oldest key is `k1`;
re-storing `k1` and then inserting a fresh run evicts `k1`. -/
theorem rememberSubagentRun_overwrite_keeps_position_witness :
    mapGet
      (rememberSubagentRun
        (rememberSubagentRun c10Registry { runId := ['k', '1'], createdAt := 9, tasks := [] })
        { runId := ['k', 'x'], createdAt := 0, tasks := [] })
      ['k', '1'] = none :=
  rememberSubagentRun_overwrite_keeps_position.2.2 c10Registry
    { runId := ['k', '1'], createdAt := 9, tasks := [] }
    { runId := ['k', 'x'], createdAt := 0, tasks := [] }
    (by decide) (by decide) (by decide) (by decide) (by decide) (by decide)

/-- **C6.** `resolveSubagentConcurrency` maps `undefined` to the default 2,
returns every integer in [1,4] unchanged, rejects (returns `null` for)
every non-integer value and every integer outside [1,4], and the
`subagents` tool turns a rejection into a caller-facing error before
running any task. -/
theorem resolveSubagentConcurrency_spec :
    resolveSubagentConcurrency none = some 2 ∧
    (∀ n : ℤ, 1 ≤ n → n ≤ 4 → resolveSubagentConcurrency (some (n : ℚ)) = some n) ∧
    (∀ q : ℚ, q.den ≠ 1 → resolveSubagentConcurrency (some q) = none) ∧
    (∀ n : ℤ, n < 1 ∨ 4 < n → resolveSubagentConcurrency (some (n : ℚ)) = none) ∧
    resolveSubagentConcurrency (some (3 / 2 : ℚ)) = none ∧
    resolveSubagentConcurrency (some (0 : ℚ)) = none ∧
    resolveSubagentConcurrency (some (5 : ℚ)) = none ∧
    resolveSubagentConcurrency (some (4 : ℚ)) = some 4 ∧
    (∀ tasks value, resolveSubagentConcurrency value = none →
      subagentsPrecheck true tasks value = .concurrencyError concurrencyErrorText) := by
  have hin : ∀ n : ℤ, 1 ≤ n → n ≤ 4 → resolveSubagentConcurrency (some (n : ℚ)) = some n := by
    intro n h1 h4
    unfold resolveSubagentConcurrency
    simp only [Option.getD]
    rw [if_neg, if_neg]
    · rw [Rat.num_intCast]
    · rw [not_or]
      constructor
      · rw [not_lt]
        exact_mod_cast h1
      · rw [not_lt]
        exact_mod_cast h4
    · rw [Rat.den_intCast]
      exact fun h => h rfl
  have hfrac : ∀ q : ℚ, q.den ≠ 1 → resolveSubagentConcurrency (some q) = none := by
    intro q hq
    unfold resolveSubagentConcurrency
    simp only [Option.getD]
    rw [if_pos hq]
  have hout : ∀ n : ℤ, n < 1 ∨ 4 < n → resolveSubagentConcurrency (some (n : ℚ)) = none := by
    intro n hn
    unfold resolveSubagentConcurrency
    simp only [Option.getD]
    rw [if_neg, if_pos]
    · rcases hn with hn | hn
      · exact Or.inl (by exact_mod_cast hn)
      · exact Or.inr (by exact_mod_cast hn)
    · rw [Rat.den_intCast]
      exact fun h => h rfl
  refine ⟨by decide, hin, hfrac, hout, ?_, ?_, ?_, ?_, ?_⟩
  · exact hfrac _ (by norm_num)
  · have h0 : ((0 : ℤ) : ℚ) = (0 : ℚ) := by norm_num
    exact h0 ▸ hout 0 (Or.inl (by decide))
  · have h5 : ((5 : ℤ) : ℚ) = (5 : ℚ) := by norm_num
    exact h5 ▸ hout 5 (Or.inr (by decide))
  · have h4 : ((4 : ℤ) : ℚ) = (4 : ℚ) := by norm_num
    exact h4 ▸ hin 4 (by decide) (by decide)
  · intro tasks value h
    unfold subagentsPrecheck
    simp only [Bool.not_true, Bool.false_eq_true, if_false, h]

/-- Witness for C6: the theorem applied at the concrete value 3. -/
theorem resolveSubagentConcurrency_spec_witness :
    resolveSubagentConcurrency (some ((3 : ℤ) : ℚ)) = some 3 :=
  resolveSubagentConcurrency_spec.2.1 3 (by decide) (by decide)

/-- **C9.** The per-task activity list is a fixed-capacity ring buffer:
starting from any buffer within capacity, `recordActivity` leaves at most
120 entries; an empty normalized snippet is skipped, a push below
capacity appends, and a push at capacity drops the oldest entry while the
rest survive in append order. -/
theorem recordActivity_ringBuffer (acts : List SubagentActivity) (kind : SubagentActivityKind)
    (text : Str) (ts : Nat) (hcap : acts.length ≤ 120) :
    (recordActivity acts kind text ts).length ≤ 120 ∧
    (summarizeSnippet text 180 = [] → recordActivity acts kind text ts = acts) ∧
    (summarizeSnippet text 180 ≠ [] → acts.length < 120 →
      recordActivity acts kind text ts
        = acts ++ [{ kind := kind, text := summarizeSnippet text 180, timestamp := ts }]) ∧
    (summarizeSnippet text 180 ≠ [] → acts.length = 120 →
      recordActivity acts kind text ts
        = acts.tail ++ [{ kind := kind, text := summarizeSnippet text 180, timestamp := ts }]) := by
  by_cases hn : summarizeSnippet text 180 = []
  · have hr : recordActivity acts kind text ts = acts := by
      unfold recordActivity
      rw [if_pos hn]
    exact ⟨by rw [hr]; exact hcap, fun _ => hr, fun h _ => absurd hn h, fun h _ => absurd hn h⟩
  · by_cases hlen : acts.length < 120
    · have hr : recordActivity acts kind text ts
          = acts ++ [{ kind := kind, text := summarizeSnippet text 180, timestamp := ts }] := by
        unfold recordActivity maxActivities
        rw [if_neg hn, if_neg]
        simp only [List.length_append, List.length_cons, List.length_nil]
        omega
      refine ⟨?_, fun h => absurd h hn, fun _ _ => hr, fun _ h => absurd h (by omega)⟩
      rw [hr]
      simp only [List.length_append, List.length_cons, List.length_nil]
      omega
    · have h120 : acts.length = 120 := by omega
      match acts, h120 with
      | a0 :: rest, h120 =>
        have hr : recordActivity (a0 :: rest) kind text ts
            = rest ++ [{ kind := kind, text := summarizeSnippet text 180, timestamp := ts }] := by
          unfold recordActivity maxActivities
          rw [if_neg hn]
          rw [if_pos]
          · rfl
          · simp only [List.length_append, List.length_cons, List.length_nil] at h120 ⊢
            omega
        refine ⟨?_, fun h => absurd h hn, fun _ h => absurd h (by omega), fun _ _ => hr⟩
        rw [hr]
        simp only [List.length_append, List.length_cons, List.length_nil] at h120 ⊢
        omega

/-- Witness for C9: the theorem applied to an empty buffer and the
`started` status line. -/
theorem recordActivity_ringBuffer_witness :
    (recordActivity [] .status ("started".toList) 0).length ≤ 120 :=
  (recordActivity_ringBuffer [] .status ("started".toList) 0 (by decide)).1

end PiExt
